import Mathlib

/-!
# Mustache template engine: parser, tree walker and renderer

A shallow embedding of `src/Mustache/main.cpp`.

* `std::string` is a list of characters; offsets and sizes are natural numbers.
* `std::string::npos` as a search result is `none`.
* The parser's `sections` vector of pointers is represented by its size: every pointer on it
  is the last child of the one below it (`&sections.back()->children.back()` is pushed right
  after that child was appended, and a child sequence only grows while its owner is on top),
  so the stack is the path of last children of that length starting at the root.
* `invalidStartPosition`, the one pointer that outlives its pointee, is represented by whether
  it is null; the read through it after the pointee was destroyed is an abort of its own.
* Loops and recursion carry a step budget; the budgets are shown to suffice where results
  are stated.
-/

set_option linter.dupNamespace false

namespace Mustache

/-! ## Strings -/

/-- The template's `StringType` (`std::string`): a sequence of `value_type` elements, one
`Char` for each, so that an offset counts elements. -/
abbrev StringType := List Char

/-- The value `StringType::npos` (the largest `size_type`, 64 bits wide). -/
def npos : Nat := 2 ^ 64 - 1

/-- The C library `isspace` in the default locale: space, `\t`, `\n`, `\v`, `\f`, `\r`. -/
def isspace (c : Char) : Bool :=
  c.toNat == 32 || (9 ≤ c.toNat && c.toNat ≤ 13)

/-- `trim` (main.cpp 18-29): `it` skips leading whitespace, `rit` walks back from the end
until it meets `it` or a non-whitespace character; the result is the range between them. -/
def trim (s : StringType) : StringType :=
  let it := s.dropWhile isspace
  ((it.reverse).dropWhile isspace).reverse

/-- Search loop of `std::string::find`: the first offset `i + k` such that `needle` starts the
`k`-th tail of the given text. -/
def findFrom (needle : StringType) : StringType → Nat → Option Nat
  | [], i => if needle.isEmpty then some i else none
  | c :: cs, i => if needle.isPrefixOf (c :: cs) then some i else findFrom needle cs (i + 1)

/-- `s.find(needle, pos)`: the lowest offset at or after `pos` where `needle` occurs in `s`;
`none` stands for `npos`. -/
def find (s needle : StringType) (pos : Nat) : Option Nat :=
  if pos ≤ s.length then findFrom needle (s.drop pos) pos else none

/-- `StringType(s, pos, n)`: the substring of at most `n` characters starting at `pos`. -/
def substr (s : StringType) (pos n : Nat) : StringType :=
  (s.drop pos).take n

/-- `s.at(i)`: the character at offset `i`; `none` stands for the `std::out_of_range`
exception. -/
def charAt (s : StringType) (i : Nat) : Option Char :=
  s.get? i

/-- Decimal rendering of an offset, as `operator<<` writes a `size_type`. -/
def showNat (n : Nat) : StringType :=
  Nat.toDigits 10 n

/-- `braceDelimiterBegin(2, '{')`. -/
def braceDelimiterBegin : StringType := List.replicate 2 (Char.ofNat 123)

/-- `braceDelimiterEnd(2, '}')`. -/
def braceDelimiterEnd : StringType := List.replicate 2 (Char.ofNat 125)

/-- `braceDelimiterEndUnescaped(3, '}')`. -/
def braceDelimiterEndUnescaped : StringType := List.replicate 3 (Char.ofNat 125)

/-- `currentDelimiterBegin`: initialised from `braceDelimiterBegin` and never assigned again. -/
def currentDelimiterBegin : StringType := braceDelimiterBegin

/-- `currentDelimiterEnd`: initialised from `braceDelimiterEnd` and never assigned again. -/
def currentDelimiterEnd : StringType := braceDelimiterEnd

/-- `currentDelimiterIsBrace`: initialised to `true` and never assigned again. -/
def currentDelimiterIsBrace : Bool := true

/-! ## Context -/

/-- The `Context` class: `getVar(name, result)` returns whether the name was found and, when it
was, stores the value in `result`. The lookup itself is a field, so that a rendering can be
stated for any table of values. -/
structure Context where
  getVar : StringType → Option StringType

/-- The hard-coded `Context::getVar` of main.cpp 34-51. -/
def Context.demo : Context where
  getVar name :=
    if name = "name".toList then some "Kevin".toList
    else if name = "ender".toList then some []
    else if name = "dayOfWeek".toList then some "Monday".toList
    else if name = "alive".toList then some "uh".toList
    else none

/-! ## Document tree -/

/-- `Tag::Type`. -/
inductive TagType where
  | Invalid
  | Variable
  | UnescapedVariable
  | SectionBegin
  | SectionEnd
  | SectionBeginInverted
  | Comment
  | Partial
  | SetDelimiter
  deriving DecidableEq, Repr

/-- `Tag`: a name and a type, `Invalid` until the classifier assigns one. -/
structure Tag where
  name : StringType := []
  type : TagType := TagType.Invalid
  deriving DecidableEq, Repr

/-- `Tag::isSectionBegin`. -/
def Tag.isSectionBegin (tag : Tag) : Bool :=
  tag.type == TagType.SectionBegin || tag.type == TagType.SectionBeginInverted

/-- `Tag::isSectionEnd`. -/
def Tag.isSectionEnd (tag : Tag) : Bool :=
  tag.type == TagType.SectionEnd

/-- `Component`: text, tag, children and source position of one node. -/
inductive Component where
  | mk (text : StringType) (tag : Tag) (children : List Component) (position : Nat)
  deriving Repr

namespace Component

/-- Field `text`. -/
def text : Component → StringType
  | mk t _ _ _ => t

/-- Field `tag`. -/
def tag : Component → Tag
  | mk _ t _ _ => t

/-- Field `children`. -/
def children : Component → List Component
  | mk _ _ c _ => c

/-- Field `position`. -/
def position : Component → Nat
  | mk _ _ _ p => p

/-- The component with its child sequence replaced. -/
def setChildren : Component → List Component → Component
  | mk t g _ p, c => mk t g c p

/-- `Component::isText`. -/
def isText (comp : Component) : Bool :=
  !comp.text.isEmpty

/-- `Component::isTag`. -/
def isTag (comp : Component) : Bool :=
  comp.text.isEmpty

/-- A default-constructed `Component`: empty text, `Invalid` tag, no children, position
`npos`. -/
def new : Component := mk [] {} [] npos

end Component

mutual
/-- Number of levels of a component and everything below it. -/
def Component.height : Component → Nat
  | .mk _ _ children _ => heightList children + 1
/-- The largest `Component.height` in a child sequence. -/
def heightList : List Component → Nat
  | [] => 0
  | c :: cs => max c.height (heightList cs)
end

/-! ## Tag classifier -/

/-- `parseTagContents` (main.cpp 391-430): the tag assigned to the trimmed interior text of a
tag. -/
def parseTagContents (isUnescapedVar : Bool) (contents : StringType) : Tag :=
  if isUnescapedVar then
    { type := TagType.UnescapedVariable, name := contents }
  else
    match contents with
    | [] => { type := TagType.Variable, name := [] }
    | c :: rest =>
      let type :=
        if c = '#' then TagType.SectionBegin
        else if c = '^' then TagType.SectionBeginInverted
        else if c = '/' then TagType.SectionEnd
        else if c = '>' then TagType.Partial
        else if c = '&' then TagType.UnescapedVariable
        else if c = '!' then TagType.Comment
        else TagType.Variable
      if type = TagType.Variable then
        { type := type, name := contents }
      else
        { type := type, name := trim rest }

/-! ## Tree walker -/

/-- `WalkControl`. -/
inductive WalkControl where
  | Continue
  | Stop
  | Skip
  deriving DecidableEq, Repr

/-- `WalkCallback`: called with a mutable reference to a component and the depth. The state
`σ` stands for what the lambda captured by reference; the returned component is the one
referred to after the call. -/
abbrev WalkCallback (σ : Type) := Component → Nat → σ → WalkControl × Component × σ

/-- The `for (auto childComp : comp.children)` loop of the recursive `walk` (main.cpp
378-386), with `visit` standing for the recursive call. Each element is copied, so nothing the
callback does to it reaches the sequence. The result is the final `control`. -/
def walkChildren {σ : Type} (visit : Component → Nat → σ → Option (WalkControl × σ)) :
    List Component → Nat → WalkControl → σ → Option (WalkControl × σ)
  | [], _, control, st => some (control, st)
  | childComp :: rest, depth, _, st =>
    match visit childComp depth st with
    | none => none
    | some (control, st1) =>
      if control = WalkControl.Stop then some (control, st1)
      else if control = WalkControl.Skip then some (WalkControl.Continue, st1)
      else walkChildren visit rest depth control st1

/-- The recursive `walk(callback, comp, depth)` (main.cpp 370-389). The first argument bounds
the recursion depth; `none` means the bound was reached. -/
def walkComponent {σ : Type} (callback : WalkCallback σ) :
    Nat → Component → Nat → σ → Option (WalkControl × σ)
  | 0, _, _, _ => none
  | fuel + 1, comp, depth, st =>
    match callback comp depth st with
    | (control, comp1, st1) =>
      if control = WalkControl.Stop then some (control, st1)
      else if control = WalkControl.Skip then some (WalkControl.Continue, st1)
      else walkChildren (walkComponent callback fuel) comp1.children (depth + 1) control st1

/-- The `for (auto comp : rootComponent_.children)` loop of `walk(callback)` (main.cpp
361-368). -/
def walkTop {σ : Type} (visit : Component → Nat → σ → Option (WalkControl × σ)) :
    List Component → σ → Option σ
  | [], st => some st
  | comp :: rest, st =>
    match visit comp 0 st with
    | none => none
    | some (control, st1) =>
      if control ≠ WalkControl.Continue then some st1
      else walkTop visit rest st1

/-- `walk(callback)` over the tree below `rootComponent_`. The recursion is bounded by the
height of the tree, which is enough whenever the callback does not make the component it is
handed taller. -/
def walk {σ : Type} (rootComponent_ : Component) (callback : WalkCallback σ) (st : σ) :
    Option σ :=
  walkTop (walkComponent callback rootComponent_.height) rootComponent_.children st

/-! ## Engine -/

/-- The engine's data members `errorMessage_` and `rootComponent_`. -/
structure Mustache where
  errorMessage_ : StringType
  rootComponent_ : Component

/-- `Mustache::isValid`. -/
def Mustache.isValid (m : Mustache) : Bool :=
  m.errorMessage_.isEmpty

/-- `Mustache::errorMessage`. -/
def Mustache.errorMessage (m : Mustache) : StringType :=
  m.errorMessage_

/-! ## Parser -/

/-- Apply `f` to the last element of a sequence (`children.back()` accessed by reference). -/
def updateLast {α : Type} (f : α → α) : List α → List α
  | [] => []
  | [x] => [f x]
  | x :: y :: rest => x :: updateLast f (y :: rest)

/-- `sections.back()->children.push_back(comp)` where `sections` holds `depth + 1` pointers:
`comp` is appended to the child sequence reached from `node` by `depth` steps to the last
child. -/
def pushChild : Nat → Component → Component → Component
  | 0, comp, node => node.setChildren (node.children ++ [comp])
  | depth + 1, comp, node => node.setChildren (updateLast (pushChild depth comp) node.children)

/-- The parser's variables that change during the scan. `sections` is the size of the
`sections` vector; its elements are determined by the size (see the header). -/
structure ScanState where
  rootComponent_ : Component
  sections : Nat
  inputPosition : Nat

/-- The ways one pass through the body of the `while` loop can end. -/
inductive ScanStep where
  /-- The end of the body was reached. -/
  | next (s : ScanState)
  /-- The `break` after the final text (main.cpp 286). -/
  | finished (rootComponent_ : Component)
  /-- An error message was assigned and `parse` returned (main.cpp 306-307, 324-325). -/
  | failed (errorMessage_ : StringType) (rootComponent_ : Component)
  /-- Thrown by `input.at` (main.cpp 297). -/
  | outOfRange

/-- The message of main.cpp 305. -/
def unterminatedTagMessage (tagLocationStart : Nat) : StringType :=
  "No tag end delimiter found for start delimiter at ".toList ++ showNat tagLocationStart

/-- The message of main.cpp 323. -/
def unmatchedSectionEndMessage (name : StringType) (position : Nat) : StringType :=
  "Section end tag \x22".toList ++ name ++ "\x22 found without start tag at ".toList
    ++ showNat position

/-- The message of main.cpp 349, for the name and the position that are read there. -/
def unclosedSectionMessage (name : StringType) (position : Nat) : StringType :=
  "No section end tag found for section \x22".toList ++ name ++ "\x22 at ".toList
    ++ showNat position

/-- The end of the loop body (main.cpp 317-331), after `comp` was appended to the open
section: push or pop `sections`, then start the next search at `next`, the offset after the
tag. -/
def pushOrPopSections (sections : Nat) (rootComponent_ comp : Component) (next : Nat) :
    ScanStep :=
  if comp.tag.isSectionBegin then
    ScanStep.next ⟨rootComponent_, sections + 1, next⟩
  else if comp.tag.isSectionEnd then
    if sections = 1 then
      ScanStep.failed (unmatchedSectionEndMessage comp.tag.name comp.position) rootComponent_
    else
      ScanStep.next ⟨rootComponent_, sections - 1, next⟩
  else
    ScanStep.next ⟨rootComponent_, sections, next⟩

/-- One pass through the body of the `while` loop of `parse` (main.cpp 277-331).
`inputSize - 2` is evaluated only after a begin delimiter was found, hence with
`inputSize ≥ 2`, where the unsigned subtraction does not wrap. -/
def scanStep (input : StringType) (s : ScanState) : ScanStep :=
  let inputSize := input.length
  let inputPosition := s.inputPosition
  -- Find the next tag start delimiter
  match find input currentDelimiterBegin inputPosition with
  | none =>
    -- No tag found. Add the remaining text.
    let comp := Component.mk (substr input inputPosition (inputSize - inputPosition)) {} []
      inputPosition
    ScanStep.finished (pushChild (s.sections - 1) comp s.rootComponent_)
  | some tagLocationStart =>
    let root1 :=
      if tagLocationStart ≠ inputPosition then
        -- Tag found, add text up to this tag.
        let comp := Component.mk (substr input inputPosition (tagLocationStart - inputPosition))
          {} [] inputPosition
        pushChild (s.sections - 1) comp s.rootComponent_
      else s.rootComponent_
    -- Find the next tag end delimiter
    let tagContentsLocation := tagLocationStart + currentDelimiterBegin.length
    let tagIsUnescapedVar : Option Bool :=
      if currentDelimiterIsBrace && tagLocationStart != inputSize - 2 then
        match charAt input tagContentsLocation with
        | none => none
        | some c => some (c == Char.ofNat 123)
      else some false
    match tagIsUnescapedVar with
    | none => ScanStep.outOfRange
    | some tagIsUnescapedVar =>
      let currenttTagDelimiterEnd :=
        if tagIsUnescapedVar then braceDelimiterEndUnescaped else currentDelimiterEnd
      let tagContentsLocation :=
        if tagIsUnescapedVar then tagContentsLocation + 1 else tagContentsLocation
      match find input currenttTagDelimiterEnd tagContentsLocation with
      | none => ScanStep.failed (unterminatedTagMessage tagLocationStart) root1
      | some tagLocationEnd =>
        -- Create a Tag object representation
        let tagContents := trim (substr input tagContentsLocation
          (tagLocationEnd - tagContentsLocation))
        let comp := Component.mk [] (parseTagContents tagIsUnescapedVar tagContents) []
          tagLocationStart
        let root2 := pushChild (s.sections - 1) comp root1
        pushOrPopSections s.sections root2 comp
          (tagLocationEnd + currenttTagDelimiterEnd.length)

/-- Why a call did not return normally: the step budget of the model ran out,
`std::out_of_range` was thrown, or an object was read through a pointer after its lifetime
had ended (undefined behaviour: nothing is stated about what the program does from there). -/
inductive Abort where
  | outOfFuel
  | outOfRange
  | danglingRead
  deriving DecidableEq, Repr

/-- `const Component *invalidStartPosition` of `parse` (main.cpp 335): null, or the address
stored by the validation lambda (main.cpp 341). That address is the one of the walker's loop
copy of a node (`for (auto comp : ...)`, main.cpp 362 and 378), an object that is destroyed
when `walk` returns; what the pointer points to is therefore not represented, only whether
it is null. -/
inductive ComponentPtr where
  | nullptr
  | loopCopy
  deriving DecidableEq, Repr

/-- How the scan of `parse` ended. -/
inductive ScanResult where
  /-- The loop was left, by its condition or by the `break`; validation follows. -/
  | completed (rootComponent_ : Component)
  /-- `parse` returned from inside the loop with this error message. -/
  | returned (errorMessage_ : StringType) (rootComponent_ : Component)

/-- The tree in `rootComponent_` when the scan ended, either way. -/
def ScanResult.rootComponent_ : ScanResult → Component
  | ScanResult.completed root => root
  | ScanResult.returned _ root => root

/-- The `while (inputPosition != inputSize)` loop of `parse` (main.cpp 276-332); the first
argument bounds the number of iterations. -/
def scanLoop (input : StringType) : Nat → ScanState → Except Abort ScanResult
  | 0, _ => Except.error Abort.outOfFuel
  | fuel + 1, s =>
    if s.inputPosition = input.length then
      Except.ok (ScanResult.completed s.rootComponent_)
    else
      match scanStep input s with
      | ScanStep.next s1 => scanLoop input fuel s1
      | ScanStep.finished root => Except.ok (ScanResult.completed root)
      | ScanStep.failed msg root => Except.ok (ScanResult.returned msg root)
      | ScanStep.outOfRange => Except.error Abort.outOfRange

/-- The validation lambda of `parse` (main.cpp 336-346). Its state is
`invalidStartPosition`; `invalidStartPosition = &comp` stores the address of the component
the walker handed to the lambda, which is the walker's own loop copy of the node. -/
def validateCallback : WalkCallback ComponentPtr :=
  fun comp _ invalidStartPosition =>
    if !comp.tag.isSectionBegin then
      (WalkControl.Continue, comp, invalidStartPosition)
    else
      match comp.children.getLast? with
      | none => (WalkControl.Stop, comp, ComponentPtr.loopCopy)
      | some back =>
        if !back.tag.isSectionEnd || back.tag.name != comp.tag.name then
          (WalkControl.Stop, comp, ComponentPtr.loopCopy)
        else
          -- remove now useless end section component
          (WalkControl.Continue, comp.setChildren comp.children.dropLast, invalidStartPosition)

/-- `Mustache::parse` (main.cpp 260-353), run by the constructor on an engine with an empty
error message and a default root. Every continuing pass of the scan consumes at least one
character, so `input.length + 1` passes are allowed. When the validation walk has set
`invalidStartPosition`, main.cpp 349 builds the message from `invalidStartPosition->tag.name`
and `invalidStartPosition->position`: both are read from the walker's loop copy after `walk`
has returned and destroyed it, which is `Abort.danglingRead`. -/
def Mustache.parse (input : StringType) : Except Abort Mustache :=
  match scanLoop input (input.length + 1) ⟨Component.new, 1, 0⟩ with
  | Except.error e => Except.error e
  | Except.ok (ScanResult.returned msg root) => Except.ok ⟨msg, root⟩
  | Except.ok (ScanResult.completed root) =>
    -- Check for sections without an ending tag
    match walk root validateCallback ComponentPtr.nullptr with
    | none => Except.error Abort.outOfFuel
    | some ComponentPtr.nullptr => Except.ok ⟨[], root⟩
    | some ComponentPtr.loopCopy => Except.error Abort.danglingRead

/-! ## Renderer and printer -/

/-- The lambda of `render` (main.cpp 165-204); its state is what has been written to
`stream`. -/
def renderCallback (ctx : Context) : WalkCallback StringType :=
  fun comp _ stream =>
    if comp.isText then
      (WalkControl.Continue, comp, stream ++ comp.text)
    else if comp.isTag then
      match comp.tag.type with
      | TagType.Variable =>
        match ctx.getVar comp.tag.name with
        | some var => (WalkControl.Continue, comp, stream ++ var)
        | none => (WalkControl.Continue, comp, stream)
      | TagType.UnescapedVariable =>
        match ctx.getVar comp.tag.name with
        | some var => (WalkControl.Continue, comp, stream ++ var)
        | none => (WalkControl.Continue, comp, stream)
      | TagType.SectionBegin =>
        match ctx.getVar comp.tag.name with
        | some _ => (WalkControl.Continue, comp, stream)
        | none => (WalkControl.Skip, comp, stream)
      | _ => (WalkControl.Continue, comp, stream)
    else (WalkControl.Continue, comp, stream)

/-- `Mustache::render`: the characters written to `stream`. -/
def Mustache.render (m : Mustache) (ctx : Context) : Option StringType :=
  walk m.rootComponent_ (renderCallback ctx) []

/-- The lambda of `print` (main.cpp 209-216); `std::endl` writes a newline. -/
def printCallback : WalkCallback StringType :=
  fun comp depth stream =>
    let indent : StringType := if depth ≥ 1 then List.replicate depth ' ' else []
    if comp.isTag then
      (WalkControl.Continue, comp,
        stream ++ indent ++ "TAG: \x7b\x7b".toList ++ comp.tag.name ++ "\x7d\x7d\n".toList)
    else
      (WalkControl.Continue, comp, stream ++ indent ++ "TXT: ".toList ++ comp.text ++ ['\n'])

/-- `Mustache::print`: the characters written to `stream`. -/
def Mustache.print (m : Mustache) : Option StringType :=
  walk m.rootComponent_ printCallback []

/-- The template of `main` (main.cpp 443). -/
def demoInput : StringType :=
  ("Hello \x7b\x7bname\x7d\x7d! Today is \x7b\x7bdayOfWeek\x7d\x7d." ++
    "\x7b\x7b#alive\x7d\x7dYou\x27re alive!.\x7b\x7b#inner\x7d\x7dinner stuff" ++
    "\x7b\x7b#deeper\x7d\x7dwe must go deeper\x7b\x7b/deeper\x7d\x7d" ++
    "\x7b\x7b/inner\x7d\x7d\x7b\x7b/alive\x7d\x7dfin\x7b\x7bender\x7d\x7dhi").toList

/-- `main` (main.cpp 439-457): what `templ.render(ss, ctx)` leaves in `ss`; `none` when the
template is reported invalid (nothing is rendered then) or a call does not return
normally. -/
def main : Option StringType :=
  match Mustache.parse demoInput with
  | Except.error _ => none
  | Except.ok templ => if !templ.isValid then none else templ.render Context.demo

/-! ## Vocabulary of the properties -/

/-- The character `{`, written `braceDelimiterBegin.at(0)` in the parser. -/
def braceOpen : Char := Char.ofNat 123

/-- The character `}`. -/
def braceClose : Char := Char.ofNat 125

/-- The characters that select a tag type other than `Variable` in `parseTagContents`. -/
def sigils : List Char := ['#', '^', '/', '>', '&', '!']

/-- A context that knows the single name `key`, with value `value`. -/
def Context.single (key value : StringType) : Context where
  getVar name := if name = key then some value else none

/-- A text that contains no brace character. -/
def NoBrace (s : StringType) : Prop :=
  braceOpen ∉ s ∧ braceClose ∉ s

instance (s : StringType) : Decidable (NoBrace s) := by
  unfold NoBrace
  infer_instance

/-- `needle` occurs in `s` at offset `p` and at no smaller offset. -/
def FirstOccurrence (needle s : StringType) (p : Nat) : Prop :=
  needle <+: s.drop p ∧ ∀ j, j < p → ¬ needle <+: s.drop j

instance (needle s : StringType) (p : Nat) : Decidable (FirstOccurrence needle s p) := by
  unfold FirstOccurrence
  infer_instance

/-- A text with no whitespace at either end: its first and its last character, when there
are any, are not `isspace`. -/
def Trimmed (s : StringType) : Prop :=
  (∀ y, s.head? = some y → isspace y = false) ∧ (∀ y, s.getLast? = some y → isspace y = false)

instance (s : StringType) : Decidable (Trimmed s) := by
  unfold Trimmed
  cases s.head? <;> cases s.getLast? <;> simp <;> infer_instance

/-- The tree after the first part of a pass that found the begin delimiter at `p`
(main.cpp 287-293): the text between the cursor and `p`, when there is any, has been
appended to the open section. -/
def stepText (input : StringType) (s : ScanState) (p : Nat) : Component :=
  if p ≠ s.inputPosition then
    pushChild (s.sections - 1)
      (Component.mk (substr input s.inputPosition (p - s.inputPosition)) {} [] s.inputPosition)
      s.rootComponent_
  else s.rootComponent_

/-- The tag node built by a pass (main.cpp 311-314) for a tag that begins at `p` and whose
end delimiter was found at `e`; `u` tells whether it has the triple-brace form. -/
def stepTag (input : StringType) (u : Bool) (p e : Nat) : Component :=
  Component.mk []
    (parseTagContents u (trim (substr input (if u then p + 2 + 1 else p + 2)
      (e - (if u then p + 2 + 1 else p + 2))))) [] p

mutual
/-- A component followed by everything below it in depth-first pre-order, each node paired
with its nesting level, starting from `depth` for the component itself. -/
def Component.preorder : Component → Nat → List (Component × Nat)
  | .mk text tag children position, depth =>
    (Component.mk text tag children position, depth) :: preorderList children (depth + 1)
/-- The pre-order listings of a sequence of siblings, one after the other. -/
def preorderList : List Component → Nat → List (Component × Nat)
  | [], _ => []
  | c :: cs, depth => c.preorder depth ++ preorderList cs depth
end

/-- A callback that also keeps a record of its calls: the component and depth it was called
with and the control it returned, in call order. -/
def traced {σ : Type} (callback : WalkCallback σ) :
    WalkCallback (σ × List (Component × Nat × WalkControl)) :=
  fun comp depth st =>
    match callback comp depth st.1 with
    | (control, comp1, st1) => (control, comp1, (st1, st.2 ++ [(comp, depth, control)]))

/-- A callback that always returns `Continue`, removes the last child of the component it is
handed (`comp.children.pop_back()`, as the validation lambda does at main.cpp 344) and
records the call. -/
def popBackCallback : WalkCallback (List (Component × Nat)) :=
  fun comp depth st =>
    (WalkControl.Continue, comp.setChildren comp.children.dropLast, st ++ [(comp, depth)])

/-- What holds of a single node built by the parser: it is either a text node (non-empty
text, tag type `Invalid`, no children) or a tag node (empty text, a type other than
`Invalid`), and it has children only if it is a section-begin tag. -/
def Component.shapeOK (c : Component) : Bool :=
  ((!c.text.isEmpty && c.tag.type == TagType.Invalid && c.children.isEmpty) ||
    (c.text.isEmpty && c.tag.type != TagType.Invalid)) &&
  (c.children.isEmpty || c.tag.isSectionBegin)

mutual
/-- `shapeOK` for a component and for every node below it. -/
def Component.shaped : Component → Bool
  | .mk text tag children position =>
    (Component.mk text tag children position).shapeOK && shapedList children
/-- `Component.shaped` for every component of a sequence. -/
def shapedList : List Component → Bool
  | [] => true
  | c :: cs => c.shaped && shapedList cs
end

mutual
/-- The number of nodes, among a component and everything below it, whose tag satisfies
`p`. -/
def Component.countTags (p : Tag → Bool) : Component → Nat
  | .mk _ tag children _ => (if p tag then 1 else 0) + countTagsList p children
/-- `Component.countTags` summed over a sequence. -/
def countTagsList (p : Tag → Bool) : List Component → Nat
  | [] => 0
  | c :: cs => c.countTags p + countTagsList p cs
end

/-- A section that is still open during the scan: a section-begin tag node none of whose
children is a section-end tag. -/
def IsOpenSection (c : Component) : Prop :=
  c.text = [] ∧ c.tag.isSectionBegin = true ∧ ∀ x ∈ c.children, x.tag.isSectionEnd = false

/-- The open-section stack of `k + 1` pointers laid over the tree: starting at `node`, `k`
steps to the last child exist, each reaching an open section; everything else in the tree
is `shaped`. -/
def OpenChain : Nat → Component → Prop
  | 0, node => shapedList node.children = true
  | k + 1, node =>
    ∃ init last, node.children = init ++ [last] ∧ shapedList init = true ∧
      IsOpenSection last ∧ OpenChain k last

/-- The size of `sections` at the moment the `while` loop of `parse` is left by its
condition or by the `break` (the same loop as `scanLoop`); `none` when `parse` returns from
inside the loop or the loop is not left within the budget. -/
def scanLoopSections (input : StringType) : Nat → ScanState → Option Nat
  | 0, _ => none
  | fuel + 1, s =>
    if s.inputPosition = input.length then some s.sections
    else
      match scanStep input s with
      | ScanStep.next s1 => scanLoopSections input fuel s1
      | ScanStep.finished _ => some s.sections
      | ScanStep.failed _ _ => none
      | ScanStep.outOfRange => none

/-- What holds of the parser's variables at every evaluation of the loop condition: the
`sections` stack lies over the tree as a chain of open sections, the tree holds as many
section-begin tags as section-end tags plus the open ones, and the cursor is within the
input. -/
def ScanInv (input : StringType) (s : ScanState) : Prop :=
  1 ≤ s.sections ∧ OpenChain (s.sections - 1) s.rootComponent_ ∧
  countTagsList Tag.isSectionBegin s.rootComponent_.children =
    countTagsList Tag.isSectionEnd s.rootComponent_.children + (s.sections - 1) ∧
  s.inputPosition ≤ input.length


/-! ## Searching -/

theorem findFrom_hit (needle r : StringType) (i : Nat) (hr : r ≠ [])
    (h : needle <+: r) : findFrom needle r i = some i := by
  cases r with
  | nil => exact absurd rfl hr
  | cons c cs =>
    have h2 : needle.isPrefixOf (c :: cs) = true := List.isPrefixOf_iff_prefix.mpr h
    simp [findFrom, h2]

theorem findFrom_skip (c0 : Char) (nt a r : StringType) (i : Nat) (h : c0 ∉ a) :
    findFrom (c0 :: nt) (a ++ r) i = findFrom (c0 :: nt) r (i + a.length) := by
  induction a generalizing i with
  | nil => simp
  | cons c cs ih =>
    have hc : c0 ≠ c := fun e => h (by simp [e])
    have hcs : c0 ∉ cs := fun e => h (by simp [e])
    have hb : (c0 == c) = false := by simpa using hc
    have e : findFrom (c0 :: nt) (c :: (cs ++ r)) i = findFrom (c0 :: nt) (cs ++ r) (i + 1) := by
      simp [findFrom, List.isPrefixOf, hb]
    rw [List.cons_append, e, ih (i + 1) hcs, List.length_cons]
    congr 1
    omega

theorem findFrom_none_of_not_infix (needle l : StringType) (i : Nat) (hn : needle ≠ [])
    (h : ¬ needle <:+: l) : findFrom needle l i = none := by
  induction l generalizing i with
  | nil =>
    cases needle with
    | nil => exact absurd rfl hn
    | cons c cs => simp [findFrom]
  | cons c cs ih =>
    have h1 : needle.isPrefixOf (c :: cs) = false := by
      cases hp : needle.isPrefixOf (c :: cs) with
      | false => rfl
      | true => exact absurd (List.isPrefixOf_iff_prefix.mp hp).isInfix h
    have h2 : ¬ needle <:+: cs := fun hi => h (hi.trans (List.suffix_cons c cs).isInfix)
    simp [findFrom, h1, ih (i + 1) h2]

theorem findFrom_first (needle : StringType) (hn : needle ≠ []) (p : Nat) :
    ∀ (l : StringType) (i : Nat), FirstOccurrence needle l p →
      findFrom needle l i = some (i + p) := by
  induction p with
  | zero =>
    intro l i h
    have h0 : needle <+: l := by simpa using h.1
    have hl : l ≠ [] := by
      rintro rfl
      exact hn (List.prefix_nil.mp h0)
    simpa using findFrom_hit needle l i hl h0
  | succ p ih =>
    intro l i h
    cases l with
    | nil =>
      have h0 : needle <+: [] := by simpa using h.1
      exact absurd (List.prefix_nil.mp h0) hn
    | cons c cs =>
      have h1 : needle.isPrefixOf (c :: cs) = false := by
        cases hp : needle.isPrefixOf (c :: cs) with
        | false => rfl
        | true =>
          exact absurd (by simpa using List.isPrefixOf_iff_prefix.mp hp)
            (h.2 0 (Nat.succ_pos p))
      have h2 : FirstOccurrence needle cs p := by
        refine ⟨by simpa using h.1, fun j hj => ?_⟩
        have := h.2 (j + 1) (Nat.succ_lt_succ hj)
        simpa using this
      simp only [findFrom, h1, Bool.false_eq_true, if_false]
      rw [ih cs (i + 1) h2]
      congr 1
      omega

theorem find_append (p r needle : StringType) (pos : Nat) (hpos : pos = p.length) :
    find (p ++ r) needle pos = findFrom needle r pos := by
  subst hpos
  simp [find]

theorem find_zero (s needle : StringType) : find s needle 0 = findFrom needle s 0 := by
  simp [find]

theorem substr_append (p t r : StringType) (pos n : Nat) (hpos : pos = p.length)
    (hn : n = t.length) : substr (p ++ (t ++ r)) pos n = t := by
  subst hpos hn
  simp [substr]

theorem charAt_append (p r : StringType) (pos : Nat) (hpos : pos = p.length) :
    charAt (p ++ r) pos = r.head? := by
  subst hpos
  cases r with
  | nil => simp [charAt]
  | cons c cs =>
    rw [charAt, List.get?_eq_getElem?, List.getElem?_append_right (Nat.le_refl _)]
    simp

/-! ## Trimming -/

theorem trim_eq (s : StringType) : trim s = (s.dropWhile isspace).rdropWhile isspace := rfl

theorem rdropWhile_cons (p : Char → Bool) (c : Char) (cs : StringType) :
    List.rdropWhile p (c :: cs) =
      if List.rdropWhile p cs = [] then (if p c then [] else [c])
      else c :: List.rdropWhile p cs := by
  induction cs using List.reverseRecOn with
  | nil => simp [List.rdropWhile_singleton]
  | append_singleton xs x ih =>
    rw [← List.cons_append, List.rdropWhile_concat, List.rdropWhile_concat]
    by_cases hx : p x = true
    · simp [hx, ih]
    · simp [hx]

theorem dropWhile_rdropWhile (p : Char → Bool) (n : StringType) :
    List.dropWhile p (List.rdropWhile p n) = List.rdropWhile p (List.dropWhile p n) := by
  induction n with
  | nil => simp
  | cons c cs ih =>
    rw [rdropWhile_cons]
    by_cases hc : p c = true
    · by_cases he : List.rdropWhile p cs = []
      · have : List.rdropWhile p (List.dropWhile p cs) = [] := by rw [← ih, he]; rfl
        simp [hc, he, List.dropWhile, this]
      · simp [hc, he, List.dropWhile, ih]
    · by_cases he : List.rdropWhile p cs = []
      · simp [hc, he, List.dropWhile, rdropWhile_cons]
      · simp [hc, he, List.dropWhile, rdropWhile_cons]

theorem trim_cons_of_not_space (c : Char) (n : StringType) (hc : isspace c = false) :
    trim (c :: n) = c :: List.rdropWhile isspace n := by
  rw [trim_eq]
  have h1 : List.dropWhile isspace (c :: n) = c :: n := by simp [List.dropWhile, hc]
  rw [h1, rdropWhile_cons]
  by_cases he : List.rdropWhile isspace n = [] <;> simp [he, hc]

theorem trim_rdropWhile (n : StringType) : trim (List.rdropWhile isspace n) = trim n := by
  rw [trim_eq, trim_eq, dropWhile_rdropWhile, List.rdropWhile_idempotent]

/-! ## One pass of the scan on inputs of a known shape -/

theorem head_ne_braceOpen (n r : StringType) (hn : braceOpen ∉ n) :
    (n ++ (braceDelimiterEnd ++ r)).head? ≠ some braceOpen := by
  cases n with
  | nil => simp [braceDelimiterEnd, braceOpen, List.replicate]
  | cons c cs =>
    intro h
    apply hn
    simp only [List.cons_append, List.head?_cons, Option.some.injEq] at h
    simp [h]

theorem find_begin (pre txt r : StringType) (pos : Nat) (hpos : pos = pre.length)
    (htxt : braceOpen ∉ txt) :
    find (pre ++ (txt ++ (braceDelimiterBegin ++ r))) currentDelimiterBegin pos =
      some (pre.length + txt.length) := by
  rw [find_append pre _ _ pos hpos]
  have e : currentDelimiterBegin = braceOpen :: [braceOpen] := rfl
  rw [e, findFrom_skip braceOpen [braceOpen] txt _ pos htxt, hpos]
  exact findFrom_hit _ _ _ (by simp [braceDelimiterBegin, List.replicate])
    (List.prefix_append _ _)

theorem find_end (p n r : StringType) (pos : Nat) (hpos : pos = p.length)
    (hn : braceClose ∉ n) :
    find (p ++ (n ++ (braceDelimiterEnd ++ r))) currentDelimiterEnd pos =
      some (p.length + n.length) := by
  rw [find_append p _ _ pos hpos]
  have e : currentDelimiterEnd = braceClose :: [braceClose] := rfl
  rw [e, findFrom_skip braceClose [braceClose] n _ pos hn, hpos]
  exact findFrom_hit _ _ _ (by simp [braceDelimiterEnd, List.replicate])
    (List.prefix_append _ _)

theorem find_end_unescaped (p n r : StringType) (pos : Nat) (hpos : pos = p.length)
    (hn : braceClose ∉ n) :
    find (p ++ (n ++ (braceDelimiterEndUnescaped ++ r))) braceDelimiterEndUnescaped pos =
      some (p.length + n.length) := by
  rw [find_append p _ _ pos hpos]
  have e : braceDelimiterEndUnescaped = braceClose :: [braceClose, braceClose] := rfl
  rw [e, findFrom_skip braceClose [braceClose, braceClose] n _ pos hn, hpos]
  exact findFrom_hit _ _ _ (by simp) (List.prefix_append _ _)

/-- A pass that starts at the end of `pre` and meets, after the brace-free text `txt`, a
two-brace tag with brace-free interior `n`. -/
theorem scanStep_tag (pre txt n rest : StringType) (s : ScanState)
    (hpos : s.inputPosition = pre.length) (htxt : braceOpen ∉ txt) (hn : NoBrace n) :
    scanStep (pre ++ (txt ++ (braceDelimiterBegin ++ (n ++ (braceDelimiterEnd ++ rest))))) s =
      pushOrPopSections s.sections
        (pushChild (s.sections - 1)
          (Component.mk [] (parseTagContents false (trim n)) [] (pre.length + txt.length))
          (if txt = [] then s.rootComponent_
            else pushChild (s.sections - 1) (Component.mk txt {} [] pre.length)
              s.rootComponent_))
        (Component.mk [] (parseTagContents false (trim n)) [] (pre.length + txt.length))
        (pre.length + txt.length + 2 + n.length + 2) := by
  have f1 := find_begin pre txt (n ++ (braceDelimiterEnd ++ rest)) s.inputPosition hpos htxt
  have hassoc : pre ++ (txt ++ (braceDelimiterBegin ++ (n ++ (braceDelimiterEnd ++ rest)))) =
      (pre ++ (txt ++ braceDelimiterBegin)) ++ (n ++ (braceDelimiterEnd ++ rest)) := by
    simp
  have hlen : (pre ++ (txt ++ braceDelimiterBegin)).length = pre.length + txt.length + 2 := by
    simp [braceDelimiterBegin]; omega
  have f2 : charAt (pre ++ (txt ++ (braceDelimiterBegin ++ (n ++ (braceDelimiterEnd ++ rest)))))
      (pre.length + txt.length + 2) = (n ++ (braceDelimiterEnd ++ rest)).head? := by
    rw [hassoc]
    exact charAt_append _ _ _ hlen.symm
  have f3 : find (pre ++ (txt ++ (braceDelimiterBegin ++ (n ++ (braceDelimiterEnd ++ rest)))))
      currentDelimiterEnd (pre.length + txt.length + 2) =
        some (pre.length + txt.length + 2 + n.length) := by
    rw [hassoc, find_end _ n rest _ hlen.symm hn.2, hlen]
  have f4 : substr (pre ++ (txt ++ (braceDelimiterBegin ++ (n ++ (braceDelimiterEnd ++ rest)))))
      pre.length txt.length = txt := substr_append pre txt _ _ _ rfl rfl
  have f5 : substr (pre ++ (txt ++ (braceDelimiterBegin ++ (n ++ (braceDelimiterEnd ++ rest)))))
      (pre.length + txt.length + 2) n.length = n := by
    rw [hassoc]
    exact substr_append _ n _ _ _ hlen.symm rfl
  have f6 : ∀ c, (n ++ (braceDelimiterEnd ++ rest)).head? = some c → (c == Char.ofNat 123) = false := by
    intro c hc
    have := head_ne_braceOpen n rest hn.1
    rw [hc] at this
    simpa [braceOpen] using this
  have hsize : (pre ++ (txt ++ (braceDelimiterBegin ++ (n ++ (braceDelimiterEnd ++ rest))))).length
      = pre.length + txt.length + 2 + n.length + 2 + rest.length := by
    simp [braceDelimiterBegin, braceDelimiterEnd]; omega
  have hlb : currentDelimiterBegin.length = 2 := rfl
  have hle : currentDelimiterEnd.length = 2 := rfl
  have hne : (pre.length + txt.length != pre.length + txt.length + 2 + n.length + 2 + rest.length - 2) = true := by
    simp; omega
  have hsub1 : pre.length + txt.length - pre.length = txt.length := by omega
  have hsub2 : pre.length + txt.length + 2 + n.length - (pre.length + txt.length + 2) = n.length := by
    omega
  rw [hpos] at f1
  unfold scanStep
  simp only [f1, hsize, hlb, hle, hpos, hne, currentDelimiterIsBrace, Bool.true_and, if_true, f2]
  cases hh : (n ++ (braceDelimiterEnd ++ rest)).head? with
  | none =>
    exfalso
    cases n <;> simp [braceDelimiterEnd, List.replicate] at hh
  | some c =>
    simp only [f6 c hh, Bool.false_eq_true, if_false, f3, hsub1, hsub2, f4, f5, hle]
    by_cases ht : txt = []
    · subst ht
      simp
    · have : pre.length + txt.length ≠ pre.length := by
        have := List.length_pos.mpr ht
        omega
      simp [ht, this]

/-- A pass that starts at the end of `pre` when no begin delimiter follows. -/
theorem scanStep_final (pre txt : StringType) (s : ScanState)
    (hpos : s.inputPosition = pre.length) (htxt : ¬ braceDelimiterBegin <:+: txt) :
    scanStep (pre ++ txt) s =
      ScanStep.finished (pushChild (s.sections - 1) (Component.mk txt {} [] pre.length)
        s.rootComponent_) := by
  have f1 : find (pre ++ txt) currentDelimiterBegin pre.length = none := by
    rw [find_append pre txt _ _ rfl]
    exact findFrom_none_of_not_infix _ _ _ (by simp [currentDelimiterBegin, braceDelimiterBegin])
      htxt
  have f2 : substr (pre ++ txt) pre.length ((pre ++ txt).length - pre.length) = txt := by
    simp [substr]
  unfold scanStep
  simp only [hpos, f1, f2]

theorem not_infix_of_not_mem (c0 : Char) (nt txt : StringType) (h : c0 ∉ txt) :
    ¬ (c0 :: nt) <:+: txt := by
  intro hi
  exact h (hi.subset (by simp))

/-! ## Unrolling the scan loop -/

theorem scanLoop_done (input : StringType) (fuel : Nat) (s : ScanState)
    (h : s.inputPosition = input.length) :
    scanLoop input (fuel + 1) s = Except.ok (ScanResult.completed s.rootComponent_) := by
  simp [scanLoop, h]

theorem scanLoop_next (input : StringType) (fuel : Nat) (s s1 : ScanState)
    (h : s.inputPosition ≠ input.length) (hs : scanStep input s = ScanStep.next s1) :
    scanLoop input (fuel + 1) s = scanLoop input fuel s1 := by
  simp [scanLoop, h, hs]

theorem scanLoop_finished (input : StringType) (fuel : Nat) (s : ScanState) (root : Component)
    (h : s.inputPosition ≠ input.length) (hs : scanStep input s = ScanStep.finished root) :
    scanLoop input (fuel + 1) s = Except.ok (ScanResult.completed root) := by
  simp [scanLoop, h, hs]

theorem scanLoop_failed (input : StringType) (fuel : Nat) (s : ScanState) (msg : StringType)
    (root : Component) (h : s.inputPosition ≠ input.length)
    (hs : scanStep input s = ScanStep.failed msg root) :
    scanLoop input (fuel + 1) s = Except.ok (ScanResult.returned msg root) := by
  simp [scanLoop, h, hs]

/-- A scan that ends within some budget ends the same way within any larger one. -/
theorem scanLoop_mono (input : StringType) (r : ScanResult) :
    ∀ (fuel extra : Nat) (s : ScanState), scanLoop input fuel s = Except.ok r →
      scanLoop input (fuel + extra) s = Except.ok r := by
  intro fuel
  induction fuel with
  | zero => intro extra s h; simp [scanLoop] at h
  | succ f ih =>
    intro extra s h
    have e : f + 1 + extra = (f + extra) + 1 := by omega
    rw [e]
    unfold scanLoop at h ⊢
    by_cases hp : s.inputPosition = input.length
    · simpa [hp] using h
    · simp only [hp, if_false] at h ⊢
      cases hs : scanStep input s with
      | next s1 =>
        simp only [hs] at h ⊢
        exact ih extra s1 h
      | finished root => simpa [hs] using h
      | failed msg root => simpa [hs] using h
      | outOfRange => simp [hs] at h

theorem parse_of_returned (input msg : StringType) (root : Component) (fuel : Nat)
    (hfuel : fuel ≤ input.length + 1)
    (h : scanLoop input fuel ⟨Component.new, 1, 0⟩ = Except.ok (ScanResult.returned msg root)) :
    Mustache.parse input = Except.ok ⟨msg, root⟩ := by
  obtain ⟨k, hk⟩ := Nat.exists_eq_add_of_le hfuel
  have := scanLoop_mono input _ fuel k _ h
  rw [← hk] at this
  simp [Mustache.parse, this]

theorem parse_of_completed (input : StringType) (root : Component) (fuel : Nat)
    (hfuel : fuel ≤ input.length + 1)
    (h : scanLoop input fuel ⟨Component.new, 1, 0⟩ = Except.ok (ScanResult.completed root)) :
    Mustache.parse input =
      match walk root validateCallback ComponentPtr.nullptr with
      | none => Except.error Abort.outOfFuel
      | some ComponentPtr.nullptr => Except.ok ⟨[], root⟩
      | some ComponentPtr.loopCopy => Except.error Abort.danglingRead := by
  obtain ⟨k, hk⟩ := Nat.exists_eq_add_of_le hfuel
  have := scanLoop_mono input _ fuel k _ h
  rw [← hk] at this
  simp [Mustache.parse, this]

/-! ## Classifier facts -/

theorem parseTagContents_variable (c : StringType) (hs : ∀ x ∈ sigils, c.head? ≠ some x) :
    parseTagContents false c = { name := c, type := TagType.Variable } := by
  cases c with
  | nil => simp [parseTagContents]
  | cons x xs =>
    have h1 : x ≠ '#' := fun e => hs '#' (by simp [sigils]) (by simp [e])
    have h2 : x ≠ '^' := fun e => hs '^' (by simp [sigils]) (by simp [e])
    have h3 : x ≠ '/' := fun e => hs '/' (by simp [sigils]) (by simp [e])
    have h4 : x ≠ '>' := fun e => hs '>' (by simp [sigils]) (by simp [e])
    have h5 : x ≠ '&' := fun e => hs '&' (by simp [sigils]) (by simp [e])
    have h6 : x ≠ '!' := fun e => hs '!' (by simp [sigils]) (by simp [e])
    simp [parseTagContents, h1, h2, h3, h4, h5, h6]

theorem parseTagContents_sectionBegin (n : StringType) :
    parseTagContents false (trim ('#' :: n)) =
      { name := trim n, type := TagType.SectionBegin } := by
  rw [trim_cons_of_not_space _ _ (by decide)]
  simp [parseTagContents, trim_rdropWhile]

theorem parseTagContents_sectionEnd (n : StringType) :
    parseTagContents false (trim ('/' :: n)) =
      { name := trim n, type := TagType.SectionEnd } := by
  rw [trim_cons_of_not_space _ _ (by decide)]
  simp [parseTagContents, trim_rdropWhile]

/-! ## Scanning a tag, and the text after the last tag -/

/-- A pass of the loop over a two-brace tag with brace-free interior, as in `scanStep_tag`,
followed by the rest of the loop. -/
theorem scanLoop_tag (input pre txt n rest : StringType) (fuel : Nat) (s : ScanState)
    (hin : input = pre ++ (txt ++ (braceDelimiterBegin ++ (n ++ (braceDelimiterEnd ++ rest)))))
    (hpos : s.inputPosition = pre.length) (htxt : braceOpen ∉ txt) (hn : NoBrace n) :
    scanLoop input (fuel + 1) s =
      match pushOrPopSections s.sections
        (pushChild (s.sections - 1)
          (Component.mk [] (parseTagContents false (trim n)) [] (pre.length + txt.length))
          (if txt = [] then s.rootComponent_
            else pushChild (s.sections - 1) (Component.mk txt {} [] pre.length)
              s.rootComponent_))
        (Component.mk [] (parseTagContents false (trim n)) [] (pre.length + txt.length))
        (pre.length + txt.length + 2 + n.length + 2) with
      | ScanStep.next s1 => scanLoop input fuel s1
      | ScanStep.finished root => Except.ok (ScanResult.completed root)
      | ScanStep.failed msg root => Except.ok (ScanResult.returned msg root)
      | ScanStep.outOfRange => Except.error Abort.outOfRange := by
  have hne : s.inputPosition ≠ input.length := by
    rw [hpos, hin]
    simp [braceDelimiterBegin]
  rw [← scanStep_tag pre txt n rest s hpos htxt hn, ← hin]
  conv_lhs => unfold scanLoop
  simp only [hne, if_false]

/-- The end of the scan: the cursor is at the end of `pre` and the brace-free text `b` is all
that follows. -/
theorem scanLoop_tail (pre b : StringType) (fuel : Nat) (s : ScanState)
    (hpos : s.inputPosition = pre.length) (hb : braceOpen ∉ b) :
    scanLoop (pre ++ b) (fuel + 1) s =
      Except.ok (ScanResult.completed
        (if b = [] then s.rootComponent_
          else pushChild (s.sections - 1) (Component.mk b {} [] pre.length) s.rootComponent_)) := by
  by_cases hbe : b = []
  · rw [scanLoop_done _ _ _ (by simp [hpos, hbe])]
    simp [hbe]
  · have hne : s.inputPosition ≠ (pre ++ b).length := by
      have := List.length_pos.mpr hbe
      rw [hpos, List.length_append]
      omega
    rw [scanLoop_finished _ _ _ _ hne
      (scanStep_final pre b s hpos (not_infix_of_not_mem braceOpen [braceOpen] b hb))]
    simp [hbe]

theorem pushChild_zero (comp : Component) (t : StringType) (g : Tag) (cs : List Component)
    (p : Nat) : pushChild 0 comp (Component.mk t g cs p) = Component.mk t g (cs ++ [comp]) p :=
  rfl

theorem updateLast_concat {α : Type} (f : α → α) (l : List α) (x : α) :
    updateLast f (l ++ [x]) = l ++ [f x] := by
  induction l with
  | nil => rfl
  | cons y ys ih =>
    cases ys with
    | nil => rfl
    | cons z zs =>
      have e : updateLast f (y :: z :: (zs ++ [x])) = y :: updateLast f (z :: (zs ++ [x])) :=
        rfl
      rw [List.cons_append, List.cons_append, e, ← List.cons_append, ih]
      rfl

theorem pushChild_succ (d : Nat) (comp x : Component) (t : StringType) (g : Tag)
    (cs : List Component) (p : Nat) :
    pushChild (d + 1) comp (Component.mk t g (cs ++ [x]) p) =
      Component.mk t g (cs ++ [pushChild d comp x]) p := by
  simp [pushChild, Component.setChildren, Component.children, updateLast_concat]

/-! ## Variable tags -/

/-- C1. Variable substitution: for brace-free texts `a`, `b` and a brace-free name `n` whose
trimmed form does not start with a sigil, parsing `a ++ "{{" ++ n ++ "}}" ++ b` succeeds and
rendering the result in any context writes `a`, then the value the context gives for `trim n`
(nothing when the lookup fails), then `b`. The trimmed name need not be non-empty for this. -/
theorem variable_substitution (a b n : StringType) (ctx : Context)
    (ha : NoBrace a) (hb : NoBrace b) (hn : NoBrace n)
    (hs : ∀ x ∈ sigils, (trim n).head? ≠ some x) :
    ∃ m, Mustache.parse (a ++ braceDelimiterBegin ++ n ++ braceDelimiterEnd ++ b) = Except.ok m ∧
      m.isValid = true ∧
      m.render ctx = some (a ++ (ctx.getVar (trim n)).getD [] ++ b) := by
  have hlen : (a ++ braceDelimiterBegin ++ n ++ braceDelimiterEnd ++ b).length =
      a.length + 2 + n.length + 2 + b.length := by
    simp [braceDelimiterBegin, braceDelimiterEnd]; omega
  have htag := parseTagContents_variable (trim n) hs
  have hscan : scanLoop (a ++ braceDelimiterBegin ++ n ++ braceDelimiterEnd ++ b) 2
      ⟨Component.new, 1, 0⟩ = Except.ok (ScanResult.completed
      (Component.mk [] {} ((if a = [] then [] else [Component.mk a {} [] 0]) ++
        [Component.mk [] { name := trim n, type := TagType.Variable } [] a.length] ++
        (if b = [] then [] else [Component.mk b {} [] (a.length + 2 + n.length + 2)])) npos)) := by
    rw [scanLoop_tag _ [] a n b 1 _ (by simp) rfl ha.1 hn, htag]
    simp only [pushOrPopSections, Component.tag, Tag.isSectionBegin, Tag.isSectionEnd,
      show (TagType.Variable == TagType.SectionBegin) = false from rfl,
      show (TagType.Variable == TagType.SectionBeginInverted) = false from rfl,
      show (TagType.Variable == TagType.SectionEnd) = false from rfl,
      Bool.or_self, Bool.false_eq_true, if_false]
    rw [scanLoop_tail _ b 0 _ (by simp [braceDelimiterBegin, braceDelimiterEnd]; omega) hb.1]
    by_cases hae : a = [] <;> by_cases hbe : b = [] <;>
      simp [hae, hbe, pushChild, Component.new, Component.setChildren, Component.children,
        braceDelimiterBegin, braceDelimiterEnd] <;> omega
  have hparse := parse_of_completed _ _ 2 (by rw [hlen]; omega) hscan
  have hvalid : walk (Component.mk [] {} ((if a = [] then [] else [Component.mk a {} [] 0]) ++
        [Component.mk [] { name := trim n, type := TagType.Variable } [] a.length] ++
        (if b = [] then [] else [Component.mk b {} [] (a.length + 2 + n.length + 2)])) npos)
      validateCallback ComponentPtr.nullptr = some ComponentPtr.nullptr := by
    by_cases hae : a = [] <;> by_cases hbe : b = [] <;>
      simp [hae, hbe, walk, walkTop, walkComponent, walkChildren, validateCallback,
        Component.height, heightList, Component.children, Component.tag, Tag.isSectionBegin]
  rw [hvalid] at hparse
  refine ⟨_, hparse, rfl, ?_⟩
  cases hg : ctx.getVar (trim n) <;> by_cases hae : a = [] <;> by_cases hbe : b = [] <;>
    simp [hg, hae, hbe, Mustache.render, walk, walkTop, walkComponent, walkChildren,
      renderCallback, Component.height, heightList, Component.children, Component.tag,
      Component.isText, Component.isTag, Component.text]

/-- The scenario of C1: `Hi {{name}}.` with `name` bound to `Sam` renders as `Hi Sam.`. -/
theorem variable_substitution_witness :
    ∃ m, Mustache.parse "Hi \x7b\x7bname\x7d\x7d.".toList = Except.ok m ∧ m.isValid = true ∧
      m.render (Context.single "name".toList "Sam".toList) = some "Hi Sam.".toList :=
  variable_substitution "Hi ".toList ".".toList "name".toList
    (Context.single "name".toList "Sam".toList) (by decide) (by decide) (by decide) (by decide)

/-! ## Sections -/

theorem noBrace_cons (c : Char) (n : StringType) (h1 : c ≠ braceOpen) (h2 : c ≠ braceClose)
    (hn : NoBrace n) : NoBrace (c :: n) := by
  refine ⟨fun h => ?_, fun h => ?_⟩
  · rcases List.mem_cons.mp h with e | e
    · exact h1 e.symm
    · exact hn.1 e
  · rcases List.mem_cons.mp h with e | e
    · exact h2 e.symm
    · exact hn.2 e

/-- C2. Section gating: for brace-free `a`, `t`, `b` and a brace-free section name `n`, parsing
`a ++ "{{#" ++ n ++ "}}" ++ t ++ "{{/" ++ n ++ "}}" ++ b` succeeds, and rendering writes
`a ++ t ++ b` when the context finds `trim n` (whatever the value) and `a ++ b` when it does
not. -/
theorem section_gating (a t b n : StringType) (ctx : Context)
    (ha : NoBrace a) (ht : NoBrace t) (hb : NoBrace b) (hn : NoBrace n) :
    ∃ m, Mustache.parse (a ++ braceDelimiterBegin ++ ('#' :: n) ++ braceDelimiterEnd ++ t ++
        braceDelimiterBegin ++ ('/' :: n) ++ braceDelimiterEnd ++ b) = Except.ok m ∧
      m.isValid = true ∧
      m.render ctx =
        some (if (ctx.getVar (trim n)).isSome then a ++ t ++ b else a ++ b) := by
  have hlen : (a ++ braceDelimiterBegin ++ ('#' :: n) ++ braceDelimiterEnd ++ t ++
        braceDelimiterBegin ++ ('/' :: n) ++ braceDelimiterEnd ++ b).length =
      a.length + n.length + t.length + n.length + b.length + 10 := by
    simp [braceDelimiterBegin, braceDelimiterEnd]; omega
  have hn1 : NoBrace ('#' :: n) := noBrace_cons _ n (by decide) (by decide) hn
  have hn2 : NoBrace ('/' :: n) := noBrace_cons _ n (by decide) (by decide) hn
  have hscan : scanLoop (a ++ braceDelimiterBegin ++ ('#' :: n) ++ braceDelimiterEnd ++ t ++
        braceDelimiterBegin ++ ('/' :: n) ++ braceDelimiterEnd ++ b) 3
      ⟨Component.new, 1, 0⟩ = Except.ok (ScanResult.completed
      (Component.mk [] {} ((if a = [] then [] else [Component.mk a {} [] 0]) ++
        [Component.mk [] { name := trim n, type := TagType.SectionBegin }
          ((if t = [] then [] else [Component.mk t {} [] (a.length + n.length + 5)]) ++
            [Component.mk [] { name := trim n, type := TagType.SectionEnd } []
              (a.length + n.length + t.length + 5)])
          a.length] ++
        (if b = [] then [] else
          [Component.mk b {} [] (a.length + n.length + t.length + n.length + 10)])) npos)) := by
    rw [scanLoop_tag _ [] a ('#' :: n)
      (t ++ braceDelimiterBegin ++ ('/' :: n) ++ braceDelimiterEnd ++ b) 2 _ (by simp) rfl
      ha.1 hn1, parseTagContents_sectionBegin]
    simp only [pushOrPopSections, Component.tag, Tag.isSectionBegin,
      show (TagType.SectionBegin == TagType.SectionBegin) = true from rfl,
      Bool.true_or, if_true]
    rw [scanLoop_tag _ (a ++ braceDelimiterBegin ++ ('#' :: n) ++ braceDelimiterEnd) t
      ('/' :: n) b 1 _ (by simp)
      (by simp [braceDelimiterBegin, braceDelimiterEnd]; omega) ht.1 hn2,
      parseTagContents_sectionEnd]
    simp only [pushOrPopSections, Component.tag, Tag.isSectionBegin, Tag.isSectionEnd,
      show (TagType.SectionEnd == TagType.SectionBegin) = false from rfl,
      show (TagType.SectionEnd == TagType.SectionBeginInverted) = false from rfl,
      show (TagType.SectionEnd == TagType.SectionEnd) = true from rfl,
      Bool.or_self, Bool.false_eq_true, if_false, if_true,
      show (1 + 1 = 1) = False from by simp]
    rw [scanLoop_tail _ b 0 _ (by simp [braceDelimiterBegin, braceDelimiterEnd]; omega) hb.1]
    by_cases hae : a = [] <;> by_cases hte : t = [] <;> by_cases hbe : b = [] <;>
      simp [hae, hte, hbe, pushChild, updateLast, Component.new, Component.setChildren,
        Component.children, braceDelimiterBegin, braceDelimiterEnd] <;> omega
  have hparse := parse_of_completed _ _ 3 (by rw [hlen]; omega) hscan
  have hvalid : walk
      (Component.mk [] {} ((if a = [] then [] else [Component.mk a {} [] 0]) ++
        [Component.mk [] { name := trim n, type := TagType.SectionBegin }
          ((if t = [] then [] else [Component.mk t {} [] (a.length + n.length + 5)]) ++
            [Component.mk [] { name := trim n, type := TagType.SectionEnd } []
              (a.length + n.length + t.length + 5)])
          a.length] ++
        (if b = [] then [] else
          [Component.mk b {} [] (a.length + n.length + t.length + n.length + 10)])) npos)
      validateCallback ComponentPtr.nullptr = some ComponentPtr.nullptr := by
    by_cases hae : a = [] <;> by_cases hte : t = [] <;> by_cases hbe : b = [] <;>
      simp [hae, hte, hbe, walk, walkTop, walkComponent, walkChildren, validateCallback,
        Component.height, heightList, Component.children, Component.tag, Tag.isSectionBegin,
        Tag.isSectionEnd, Component.setChildren]
  rw [hvalid] at hparse
  refine ⟨_, hparse, rfl, ?_⟩
  cases hg : ctx.getVar (trim n) <;> by_cases hae : a = [] <;> by_cases hte : t = [] <;>
    by_cases hbe : b = [] <;>
    simp [hg, hae, hte, hbe, Mustache.render, walk, walkTop, walkComponent, walkChildren,
      renderCallback, Component.height, heightList, Component.children, Component.tag,
      Component.isText, Component.isTag, Component.text]

/-- The first scenario of C2: `{{#on}}shown{{/on}}` renders as `shown` when `on` is found. -/
theorem section_gating_witness :
    ∃ m, Mustache.parse "\x7b\x7b#on\x7d\x7dshown\x7b\x7b/on\x7d\x7d".toList = Except.ok m ∧
      m.isValid = true ∧
      m.render (Context.single "on".toList "1".toList) = some "shown".toList :=
  section_gating [] "shown".toList [] "on".toList (Context.single "on".toList "1".toList)
    (by decide) (by decide) (by decide) (by decide)

/-- The second scenario of C2: `{{#on}}shown{{/on}}` renders as nothing when `on` is not
found. -/
theorem section_skipped_when_missing :
    (match Mustache.parse "\x7b\x7b#on\x7d\x7dshown\x7b\x7b/on\x7d\x7d".toList with
      | Except.ok m => m.render (Context.single "off".toList "1".toList)
      | Except.error _ => none) = some [] := by
  decide!

/-- The third scenario of C2: the template of `main` in the context of `main`, where `inner`
is missing. -/
theorem main_output :
    main = some "Hello Kevin! Today is Monday.You\x27re alive!.finhi".toList := by
  decide!

/-! ## Triple-brace tags -/

/-- The first pass over `"{{{" ++ n ++ "}}}"` with brace-free `n`: the tag is taken as the
triple-brace form and classified with the flag set. -/
theorem scanStep_unescaped (n : StringType) (s : ScanState) (hpos : s.inputPosition = 0)
    (hn : NoBrace n) :
    scanStep (braceDelimiterBegin ++ (braceOpen :: (n ++ braceDelimiterEndUnescaped))) s =
      ScanStep.next ⟨pushChild (s.sections - 1)
        (Component.mk [] { name := trim n, type := TagType.UnescapedVariable } [] 0)
        s.rootComponent_, s.sections, n.length + 6⟩ := by
  have f1 : find (braceDelimiterBegin ++ (braceOpen :: (n ++ braceDelimiterEndUnescaped)))
      currentDelimiterBegin 0 = some 0 := by
    rw [find_zero]
    exact findFrom_hit _ _ _ (by simp [braceDelimiterBegin, List.replicate])
      (List.prefix_append _ _)
  have f2 : charAt (braceDelimiterBegin ++ (braceOpen :: (n ++ braceDelimiterEndUnescaped))) 2
      = some braceOpen := by
    rw [charAt_append braceDelimiterBegin _ 2 rfl]
    rfl
  have hassoc : braceDelimiterBegin ++ (braceOpen :: (n ++ braceDelimiterEndUnescaped)) =
      (braceDelimiterBegin ++ [braceOpen]) ++ (n ++ (braceDelimiterEndUnescaped ++ [])) := by
    simp
  have f3 : find (braceDelimiterBegin ++ (braceOpen :: (n ++ braceDelimiterEndUnescaped)))
      braceDelimiterEndUnescaped 3 = some (3 + n.length) := by
    rw [hassoc]
    exact find_end_unescaped _ n [] 3 rfl hn.2
  have f4 : substr (braceDelimiterBegin ++ (braceOpen :: (n ++ braceDelimiterEndUnescaped)))
      3 n.length = n := by
    rw [hassoc]
    exact substr_append _ n _ 3 _ rfl rfl
  have hsize : (braceDelimiterBegin ++ (braceOpen :: (n ++ braceDelimiterEndUnescaped))).length
      = n.length + 6 := by
    simp [braceDelimiterBegin, braceDelimiterEndUnescaped]
  have hb : (braceOpen == Char.ofNat 123) = true := rfl
  have hne : (0 != n.length + 6 - 2) = true := by
    simp
  have hsub : 3 + n.length - 3 = n.length := by omega
  have hl3 : braceDelimiterEndUnescaped.length = 3 := rfl
  have hlb : currentDelimiterBegin.length = 2 := rfl
  unfold scanStep
  simp only [hpos, f1, hsize, hlb, hne, currentDelimiterIsBrace, Bool.true_and, if_true, f2, hb,
    Nat.zero_add, f3, hsub, f4, hl3, ne_eq, not_true_eq_false, if_false]
  simp only [parseTagContents, if_true, pushOrPopSections, Component.tag, Tag.isSectionBegin,
    Tag.isSectionEnd,
    show (TagType.UnescapedVariable == TagType.SectionBegin) = false from rfl,
    show (TagType.UnescapedVariable == TagType.SectionBeginInverted) = false from rfl,
    show (TagType.UnescapedVariable == TagType.SectionEnd) = false from rfl,
    Bool.or_self, Bool.false_eq_true, if_false]
  congr 2
  omega

/-- C3. Triple-brace form: for every brace-free interior `n`, parsing `"{{{" ++ n ++ "}}}"`
succeeds with exactly one node, a tag of type `UnescapedVariable` named `trim n` (a leading
sigil stays part of the name), and rendering writes the context's value for `trim n` when the
lookup succeeds and nothing otherwise. -/
theorem triple_brace (n : StringType) (hn : NoBrace n) :
    ∃ m, Mustache.parse ("\x7b\x7b\x7b".toList ++ n ++ "\x7d\x7d\x7d".toList) = Except.ok m ∧
      m.isValid = true ∧
      m.rootComponent_.children =
        [Component.mk [] { name := trim n, type := TagType.UnescapedVariable } [] 0] ∧
      ∀ ctx : Context, m.render ctx = some ((ctx.getVar (trim n)).getD []) := by
  have hin : "\x7b\x7b\x7b".toList ++ n ++ "\x7d\x7d\x7d".toList =
      braceDelimiterBegin ++ (braceOpen :: (n ++ braceDelimiterEndUnescaped)) := by
    have e1 : "\x7b\x7b\x7b".toList = braceDelimiterBegin ++ [braceOpen] := by decide
    have e2 : "\x7d\x7d\x7d".toList = braceDelimiterEndUnescaped := by decide
    rw [e1, e2]
    simp
  have hlen : (braceDelimiterBegin ++ (braceOpen :: (n ++ braceDelimiterEndUnescaped))).length
      = n.length + 6 := by
    simp [braceDelimiterBegin, braceDelimiterEndUnescaped]
  rw [hin]
  have hscan : scanLoop (braceDelimiterBegin ++ (braceOpen :: (n ++ braceDelimiterEndUnescaped)))
      2 ⟨Component.new, 1, 0⟩ = Except.ok (ScanResult.completed
        (Component.mk [] {}
          [Component.mk [] { name := trim n, type := TagType.UnescapedVariable } [] 0] npos)) := by
    rw [scanLoop_next _ 1 _ _ (by rw [hlen]; simp) (scanStep_unescaped n _ rfl hn),
      scanLoop_done _ 0 _ (by rw [hlen])]
    rfl
  have hparse := parse_of_completed _ _ 2 (by rw [hlen]; omega) hscan
  have hvalid : walk (Component.mk [] {}
      [Component.mk [] { name := trim n, type := TagType.UnescapedVariable } [] 0] npos)
      validateCallback ComponentPtr.nullptr = some ComponentPtr.nullptr := by
    simp [walk, walkTop, walkComponent, walkChildren, validateCallback, Component.height,
      heightList, Component.children, Component.tag, Tag.isSectionBegin]
  rw [hvalid] at hparse
  refine ⟨_, hparse, rfl, rfl, fun ctx => ?_⟩
  cases hg : ctx.getVar (trim n) <;>
    simp [hg, Mustache.render, walk, walkTop, walkComponent, walkChildren,
      renderCallback, Component.height, heightList, Component.children, Component.tag,
      Component.isText, Component.isTag, Component.text]

/-- The scenario of C3: `{{{raw}}}` with `raw` bound to `<b>` renders as `<b>`. -/
theorem triple_brace_witness :
    ∃ m, Mustache.parse "\x7b\x7b\x7braw\x7d\x7d\x7d".toList = Except.ok m ∧
      m.isValid = true ∧
      m.rootComponent_.children =
        [Component.mk [] { name := "raw".toList, type := TagType.UnescapedVariable } [] 0] ∧
      ∀ ctx : Context, m.render ctx = some ((ctx.getVar "raw".toList).getD []) :=
  triple_brace "raw".toList (by decide)

/-- The scenario of C3 evaluated: the output is the value, character for character. -/
theorem triple_brace_raw :
    (match Mustache.parse "\x7b\x7b\x7braw\x7d\x7d\x7d".toList with
      | Except.ok m => m.render (Context.single "raw".toList "<b>".toList)
      | Except.error _ => none) = some "<b>".toList := by
  decide!

/-! ## Inputs without tags -/

/-- C4, as amended. For every non-empty input with no occurrence of `{{` and none of `}}`,
parsing succeeds and the root has exactly one child, a text node at offset 0 whose text is
the input. -/
theorem no_delimiter_single_text (input : StringType) (hne : input ≠ [])
    (hb : ¬ braceDelimiterBegin <:+: input) (_he : ¬ braceDelimiterEnd <:+: input) :
    ∃ m, Mustache.parse input = Except.ok m ∧ m.isValid = true ∧
      ∃ c, m.rootComponent_.children = [c] ∧ c.isText = true ∧ c.text = input ∧
        c.children = [] ∧ c.position = 0 := by
  have hpos : (0 : Nat) ≠ input.length := by
    have := List.length_pos.mpr hne
    omega
  have hscan : scanLoop input 1 ⟨Component.new, 1, 0⟩ = Except.ok (ScanResult.completed
      (Component.mk [] {} [Component.mk input {} [] 0] npos)) := by
    have hstep := scanStep_final [] input ⟨Component.new, 1, 0⟩ rfl hb
    rw [List.nil_append] at hstep
    rw [scanLoop_finished _ 0 _ _ hpos hstep]
    rfl
  have hparse := parse_of_completed _ _ 1 (by omega) hscan
  have hvalid : walk (Component.mk [] {} [Component.mk input {} [] 0] npos)
      validateCallback ComponentPtr.nullptr = some ComponentPtr.nullptr := by
    simp [walk, walkTop, walkComponent, walkChildren, validateCallback, Component.height,
      heightList, Component.children, Component.tag, Tag.isSectionBegin]
  rw [hvalid] at hparse
  refine ⟨_, hparse, rfl, _, rfl, ?_, rfl, rfl, rfl⟩
  cases input with
  | nil => exact absurd rfl hne
  | cons c cs => rfl

/-- Instance of C4 as amended: the input `plain text`. -/
theorem no_delimiter_single_text_witness :
    ∃ m, Mustache.parse "plain text".toList = Except.ok m ∧ m.isValid = true ∧
      ∃ c, m.rootComponent_.children = [c] ∧ c.isText = true ∧ c.text = "plain text".toList ∧
        c.children = [] ∧ c.position = 0 :=
  no_delimiter_single_text "plain text".toList (by decide) (by decide) (by decide)

/-- C4 as stated fails on the empty input: it contains no delimiter, the parse succeeds, and
the root has no child at all. -/
theorem no_delimiter_empty_input :
    ¬ braceDelimiterBegin <:+: ([] : StringType) ∧ ¬ braceDelimiterEnd <:+: ([] : StringType) ∧
      ∃ m, Mustache.parse [] = Except.ok m ∧ m.isValid = true ∧ m.rootComponent_.children = [] :=
  ⟨by decide, by decide, _, rfl, rfl, rfl⟩

/-! ## Unterminated tags -/

theorem find_none_of_not_infix (input needle : StringType) (pos : Nat) (hn : needle ≠ [])
    (h : ¬ needle <:+: input) : find input needle pos = none := by
  unfold find
  split
  · exact findFrom_none_of_not_infix _ _ _ hn
      (fun hi => h (hi.trans (List.drop_suffix pos input).isInfix))
  · rfl

theorem firstOccurrence_bound (needle input : StringType) (p : Nat) (hn : needle ≠ [])
    (h : FirstOccurrence needle input p) : p + needle.length ≤ input.length := by
  have h1 : needle.length ≤ (input.drop p).length := h.1.length_le
  rw [List.length_drop] at h1
  have h2 : 0 < needle.length := List.length_pos.mpr hn
  omega

/-- C5. Unterminated tag: when `{{` first occurs at offset `p` and `}}` occurs nowhere in the
input, the parse returns with the message
`No tag end delimiter found for start delimiter at p`, and `isValid()` is false. -/
theorem unterminated_tag (input : StringType) (p : Nat)
    (hp : FirstOccurrence braceDelimiterBegin input p)
    (he : ¬ braceDelimiterEnd <:+: input) :
    ∃ m, Mustache.parse input = Except.ok m ∧ m.isValid = false ∧
      m.errorMessage = "No tag end delimiter found for start delimiter at ".toList ++ showNat p := by
  have hbnd := firstOccurrence_bound _ _ _ (by decide) hp
  have hlen2 : braceDelimiterBegin.length = 2 := rfl
  rw [hlen2] at hbnd
  have f1 : find input currentDelimiterBegin 0 = some p := by
    rw [find_zero]
    simpa using findFrom_first braceDelimiterBegin (by decide) p input 0 hp
  have f2 : ∀ pos, find input currentDelimiterEnd pos = none :=
    fun pos => find_none_of_not_infix _ _ _ (by decide) he
  have f3 : ∀ pos, find input braceDelimiterEndUnescaped pos = none := by
    intro pos
    refine find_none_of_not_infix _ _ _ (by decide) (fun hi => he ?_)
    exact List.IsInfix.trans (by decide : braceDelimiterEnd <:+: braceDelimiterEndUnescaped) hi
  have hstep : ∃ root, scanStep input ⟨Component.new, 1, 0⟩ =
      ScanStep.failed (unterminatedTagMessage p) root := by
    unfold scanStep
    simp only [f1]
    by_cases hq : p = input.length - 2
    · have hq2 : (p != input.length - 2) = false := by simp [hq]
      simp only [hq2, Bool.and_false, Bool.false_eq_true, if_false, f2]
      exact ⟨_, rfl⟩
    · have hq2 : (p != input.length - 2) = true := by simp [hq]
      have hlt : p + 2 < input.length := by omega
      have hc : charAt input (p + currentDelimiterBegin.length) = some (input.get ⟨p + 2, hlt⟩) := by
        simp [charAt, currentDelimiterBegin, braceDelimiterBegin, List.getElem?_eq_getElem hlt]
      simp only [hq2, currentDelimiterIsBrace, Bool.and_self, if_true, hc]
      by_cases hu : (input.get ⟨p + 2, hlt⟩ == Char.ofNat 123) = true
      · simp only [hu, if_true, f3]
        exact ⟨_, rfl⟩
      · simp only [hu, if_false, f2, Bool.false_eq_true]
        exact ⟨_, rfl⟩
  obtain ⟨root, hstep⟩ := hstep
  have hscan : scanLoop input 1 ⟨Component.new, 1, 0⟩ =
      Except.ok (ScanResult.returned (unterminatedTagMessage p) root) :=
    scanLoop_failed _ 0 _ _ _ (by simp; omega) hstep
  refine ⟨_, parse_of_returned _ _ _ 1 (by omega) hscan, ?_, rfl⟩
  simp [Mustache.isValid, unterminatedTagMessage]

/-- Instance of C5: `ab{{name` ends with the message for offset 2. -/
theorem unterminated_tag_witness :
    ∃ m, Mustache.parse "ab\x7b\x7bname".toList = Except.ok m ∧ m.isValid = false ∧
      m.errorMessage = "No tag end delimiter found for start delimiter at ".toList ++ showNat 2 :=
  unterminated_tag "ab\x7b\x7bname".toList 2 (by decide) (by decide)

/-! ## Section errors -/

/-- C6. Unmatched section end: for brace-free `t` and `n` and any `r`, parsing
`t ++ "{{/" ++ n ++ "}}" ++ r` returns with the message
`Section end tag "trim n" found without start tag at |t|`, whatever `r` is, and `isValid()`
is false. -/
theorem unmatched_section_end (t n r : StringType) (ht : NoBrace t) (hn : NoBrace n) :
    ∃ m, Mustache.parse (t ++ braceDelimiterBegin ++ ('/' :: n) ++ braceDelimiterEnd ++ r) =
        Except.ok m ∧ m.isValid = false ∧
      m.errorMessage = "Section end tag \x22".toList ++ trim n ++
        "\x22 found without start tag at ".toList ++ showNat t.length := by
  have hn2 : NoBrace ('/' :: n) := noBrace_cons _ n (by decide) (by decide) hn
  have hscan : ∃ root, scanLoop (t ++ braceDelimiterBegin ++ ('/' :: n) ++ braceDelimiterEnd ++ r)
      1 ⟨Component.new, 1, 0⟩ = Except.ok (ScanResult.returned
        (unmatchedSectionEndMessage (trim n) t.length) root) := by
    rw [scanLoop_tag _ [] t ('/' :: n) r 0 _ (by simp) rfl ht.1 hn2, parseTagContents_sectionEnd]
    simp only [pushOrPopSections, Component.tag, Tag.isSectionBegin, Tag.isSectionEnd,
      show (TagType.SectionEnd == TagType.SectionBegin) = false from rfl,
      show (TagType.SectionEnd == TagType.SectionBeginInverted) = false from rfl,
      show (TagType.SectionEnd == TagType.SectionEnd) = true from rfl,
      Bool.or_self, Bool.false_eq_true, if_false, if_true, Component.position,
      List.length_nil, Nat.zero_add]
    exact ⟨_, rfl⟩
  obtain ⟨root, hscan⟩ := hscan
  refine ⟨_, parse_of_returned _ _ _ 1 (by omega) hscan, ?_, rfl⟩
  simp [Mustache.isValid, unmatchedSectionEndMessage]

/-- Instance of C6: `ab{{/x}}{{` stops at the end tag at offset 2; the unterminated tag that
follows is never scanned. -/
theorem unmatched_section_end_witness :
    ∃ m, Mustache.parse "ab\x7b\x7b/x\x7d\x7d\x7b\x7b".toList = Except.ok m ∧
      m.isValid = false ∧
      m.errorMessage = "Section end tag \x22x\x22 found without start tag at 2".toList :=
  unmatched_section_end "ab".toList "x".toList "\x7b\x7b".toList (by decide) (by decide)

/-- For brace-free `n` and `t`, the parse of `"{{#" ++ n ++ "}}" ++ t` completes the scan
with the section node named `trim n` at offset 0 still open, the validation walk stops there
with `invalidStartPosition` set, and `parse` goes on to read the name and the position for
its message through that pointer. -/
theorem unclosed_section_reaches_read (n t : StringType) (hn : NoBrace n) (ht : NoBrace t) :
    scanLoop (braceDelimiterBegin ++ ('#' :: n) ++ braceDelimiterEnd ++ t) 2
      ⟨Component.new, 1, 0⟩ = Except.ok (ScanResult.completed
      (Component.mk [] {}
        [Component.mk [] { name := trim n, type := TagType.SectionBegin }
          (if t = [] then [] else [Component.mk t {} [] (n.length + 5)]) 0] npos)) ∧
    walk (Component.mk [] {}
        [Component.mk [] { name := trim n, type := TagType.SectionBegin }
          (if t = [] then [] else [Component.mk t {} [] (n.length + 5)]) 0] npos)
      validateCallback ComponentPtr.nullptr = some ComponentPtr.loopCopy ∧
    Mustache.parse (braceDelimiterBegin ++ ('#' :: n) ++ braceDelimiterEnd ++ t) =
      Except.error Abort.danglingRead := by
  have hn1 : NoBrace ('#' :: n) := noBrace_cons _ n (by decide) (by decide) hn
  have hlen : (braceDelimiterBegin ++ ('#' :: n) ++ braceDelimiterEnd ++ t).length =
      n.length + t.length + 5 := by
    simp [braceDelimiterBegin, braceDelimiterEnd]; omega
  have hscan : scanLoop (braceDelimiterBegin ++ ('#' :: n) ++ braceDelimiterEnd ++ t) 2
      ⟨Component.new, 1, 0⟩ = Except.ok (ScanResult.completed
      (Component.mk [] {}
        [Component.mk [] { name := trim n, type := TagType.SectionBegin }
          (if t = [] then [] else [Component.mk t {} [] (n.length + 5)]) 0] npos)) := by
    rw [scanLoop_tag _ [] [] ('#' :: n) t 1 _ (by simp) rfl (by simp) hn1,
      parseTagContents_sectionBegin]
    simp only [pushOrPopSections, Component.tag, Tag.isSectionBegin,
      show (TagType.SectionBegin == TagType.SectionBegin) = true from rfl,
      Bool.true_or, if_true]
    rw [scanLoop_tail _ t 0 _ (by simp [braceDelimiterBegin, braceDelimiterEnd]; omega) ht.1]
    by_cases hte : t = [] <;>
      simp [hte, pushChild, updateLast, Component.new, Component.setChildren,
        Component.children, braceDelimiterBegin, braceDelimiterEnd]
  have hparse := parse_of_completed _ _ 2 (by rw [hlen]; omega) hscan
  have hvalid : walk (Component.mk [] {}
        [Component.mk [] { name := trim n, type := TagType.SectionBegin }
          (if t = [] then [] else [Component.mk t {} [] (n.length + 5)]) 0] npos)
      validateCallback ComponentPtr.nullptr = some ComponentPtr.loopCopy := by
    by_cases hte : t = [] <;>
      simp [hte, walk, walkTop, walkComponent, walkChildren, validateCallback,
        Component.height, heightList, Component.children, Component.tag, Tag.isSectionBegin,
        Tag.isSectionEnd]
  rw [hvalid] at hparse
  exact ⟨hscan, hvalid, hparse⟩

/-- C7 does not hold of the code. On `{{#x}}no end` the scan completes with the section `x`
at offset 0 open, the validation walk stops at it and sets `invalidStartPosition`, and
`parse` then builds the message of main.cpp 349 from `invalidStartPosition->tag.name` and
`->position`, read from the walker's destroyed loop copy: the name and offset in the message
are not those of the section. -/
theorem unclosed_section_dangling_read :
    scanLoop "\x7b\x7b#x\x7d\x7dno end".toList 13 ⟨Component.new, 1, 0⟩ =
      Except.ok (ScanResult.completed
        (Component.mk [] {}
          [Component.mk [] { name := "x".toList, type := TagType.SectionBegin }
            [Component.mk "no end".toList {} [] 6] 0] npos)) ∧
    walk (Component.mk [] {}
          [Component.mk [] { name := "x".toList, type := TagType.SectionBegin }
            [Component.mk "no end".toList {} [] 6] 0] npos)
      validateCallback ComponentPtr.nullptr = some ComponentPtr.loopCopy ∧
    Mustache.parse "\x7b\x7b#x\x7d\x7dno end".toList = Except.error Abort.danglingRead :=
  ⟨rfl, rfl, rfl⟩

/-- For brace-free `a` and `b` with `trim a ≠ trim b`, the scan of
`"{{#" ++ a ++ "}}{{/" ++ b ++ "}}"` completes without an error (the end tag pops the section
unchecked, leaving the end tag as the child of the section), the validation walk stops at
the section node with `invalidStartPosition` set, and `parse` goes on to read the name and
the position for its message through that pointer. -/
theorem mismatched_names_reach_read (a b : StringType) (ha : NoBrace a) (hb : NoBrace b)
    (hab : trim a ≠ trim b) :
    scanLoop (braceDelimiterBegin ++ ('#' :: a) ++ braceDelimiterEnd ++
        braceDelimiterBegin ++ ('/' :: b) ++ braceDelimiterEnd)
        ((braceDelimiterBegin ++ ('#' :: a) ++ braceDelimiterEnd ++
          braceDelimiterBegin ++ ('/' :: b) ++ braceDelimiterEnd).length + 1)
        ⟨Component.new, 1, 0⟩ = Except.ok (ScanResult.completed
      (Component.mk [] {}
        [Component.mk [] { name := trim a, type := TagType.SectionBegin }
          [Component.mk [] { name := trim b, type := TagType.SectionEnd } [] (a.length + 5)]
          0] npos)) ∧
    walk (Component.mk [] {}
        [Component.mk [] { name := trim a, type := TagType.SectionBegin }
          [Component.mk [] { name := trim b, type := TagType.SectionEnd } [] (a.length + 5)]
          0] npos)
      validateCallback ComponentPtr.nullptr = some ComponentPtr.loopCopy ∧
    Mustache.parse (braceDelimiterBegin ++ ('#' :: a) ++ braceDelimiterEnd ++
        braceDelimiterBegin ++ ('/' :: b) ++ braceDelimiterEnd) =
      Except.error Abort.danglingRead := by
  have ha1 : NoBrace ('#' :: a) := noBrace_cons _ a (by decide) (by decide) ha
  have hb1 : NoBrace ('/' :: b) := noBrace_cons _ b (by decide) (by decide) hb
  have hlen : (braceDelimiterBegin ++ ('#' :: a) ++ braceDelimiterEnd ++
        braceDelimiterBegin ++ ('/' :: b) ++ braceDelimiterEnd).length =
      a.length + b.length + 10 := by
    simp [braceDelimiterBegin, braceDelimiterEnd]; omega
  have hscan : scanLoop (braceDelimiterBegin ++ ('#' :: a) ++ braceDelimiterEnd ++
        braceDelimiterBegin ++ ('/' :: b) ++ braceDelimiterEnd) 3
      ⟨Component.new, 1, 0⟩ = Except.ok (ScanResult.completed
      (Component.mk [] {}
        [Component.mk [] { name := trim a, type := TagType.SectionBegin }
          [Component.mk [] { name := trim b, type := TagType.SectionEnd } [] (a.length + 5)]
          0] npos)) := by
    rw [scanLoop_tag _ [] [] ('#' :: a) (braceDelimiterBegin ++ ('/' :: b) ++ braceDelimiterEnd)
      2 _ (by simp) rfl (by simp) ha1, parseTagContents_sectionBegin]
    simp only [pushOrPopSections, Component.tag, Tag.isSectionBegin,
      show (TagType.SectionBegin == TagType.SectionBegin) = true from rfl,
      Bool.true_or, if_true]
    rw [scanLoop_tag _ (braceDelimiterBegin ++ ('#' :: a) ++ braceDelimiterEnd) []
      ('/' :: b) [] 1 _ (by simp) (by simp [braceDelimiterBegin, braceDelimiterEnd]; omega)
      (by simp) hb1, parseTagContents_sectionEnd]
    simp only [pushOrPopSections, Component.tag, Tag.isSectionBegin, Tag.isSectionEnd,
      show (TagType.SectionEnd == TagType.SectionBegin) = false from rfl,
      show (TagType.SectionEnd == TagType.SectionBeginInverted) = false from rfl,
      show (TagType.SectionEnd == TagType.SectionEnd) = true from rfl,
      Bool.or_self, Bool.false_eq_true, if_false, if_true,
      show (1 + 1 = 1) = False from by simp]
    rw [scanLoop_done _ 0 _ (by simp [braceDelimiterBegin, braceDelimiterEnd]; omega)]
    simp [pushChild, updateLast, Component.new, Component.setChildren,
      Component.children, braceDelimiterBegin, braceDelimiterEnd]
  obtain ⟨k, hk⟩ := Nat.exists_eq_add_of_le (show 3 ≤ (braceDelimiterBegin ++ ('#' :: a) ++
    braceDelimiterEnd ++ braceDelimiterBegin ++ ('/' :: b) ++ braceDelimiterEnd).length + 1 by
      rw [hlen]; omega)
  have hfull := scanLoop_mono _ _ 3 k _ hscan
  rw [← hk] at hfull
  have hparse := parse_of_completed _ _ 3 (by rw [hlen]; omega) hscan
  have hvalid : walk (Component.mk [] {}
        [Component.mk [] { name := trim a, type := TagType.SectionBegin }
          [Component.mk [] { name := trim b, type := TagType.SectionEnd } [] (a.length + 5)]
          0] npos)
      validateCallback ComponentPtr.nullptr = some ComponentPtr.loopCopy := by
    have hab2 : trim b ≠ trim a := fun e => hab e.symm
    simp [walk, walkTop, walkComponent, walkChildren, validateCallback,
      Component.height, heightList, Component.children, Component.tag, Tag.isSectionBegin,
      Tag.isSectionEnd, hab2]
  rw [hvalid] at hparse
  exact ⟨hfull, hvalid, hparse⟩

/-- C8 does not hold of the code. On `{{#a}}{{/b}}` the scan completes without an error, the
end tag `b` having popped the section `a` unchecked; the validation walk stops at the section
and sets `invalidStartPosition`; and `parse` then builds the message of main.cpp 349 from
`invalidStartPosition->tag.name` and `->position`, read from the walker's destroyed loop
copy: the name and offset in the message are not those of section `a`. -/
theorem mismatched_names_dangling_read :
    scanLoop "\x7b\x7b#a\x7d\x7d\x7b\x7b/b\x7d\x7d".toList 13 ⟨Component.new, 1, 0⟩ =
      Except.ok (ScanResult.completed
        (Component.mk [] {}
          [Component.mk [] { name := "a".toList, type := TagType.SectionBegin }
            [Component.mk [] { name := "b".toList, type := TagType.SectionEnd } [] 6] 0]
          npos)) ∧
    walk (Component.mk [] {}
          [Component.mk [] { name := "a".toList, type := TagType.SectionBegin }
            [Component.mk [] { name := "b".toList, type := TagType.SectionEnd } [] 6] 0]
          npos)
      validateCallback ComponentPtr.nullptr = some ComponentPtr.loopCopy ∧
    Mustache.parse "\x7b\x7b#a\x7d\x7d\x7b\x7b/b\x7d\x7d".toList =
      Except.error Abort.danglingRead :=
  ⟨rfl, rfl, rfl⟩

/-! ## The tree after a successful parse -/

/-- C9 does not hold of the code: on `{{#a}}{{/a}}` the parse succeeds and the stored tree
still has the section-end node as the child of the section, and `print` lists it. The
validation lambda pops the child of the copy that `walk` hands to it
(`for (auto comp : ...)`), not of the node in `rootComponent_`. -/
theorem section_end_kept :
    ∃ m, Mustache.parse "\x7b\x7b#a\x7d\x7d\x7b\x7b/a\x7d\x7d".toList = Except.ok m ∧
      m.isValid = true ∧
      m.rootComponent_.children =
        [Component.mk [] { name := "a".toList, type := TagType.SectionBegin }
          [Component.mk [] { name := "a".toList, type := TagType.SectionEnd } [] 6] 0] ∧
      m.print = some "TAG: \x7b\x7ba\x7d\x7d\n TAG: \x7b\x7ba\x7d\x7d\n".toList :=
  ⟨_, rfl, rfl, rfl, rfl⟩

/-- What the validation lambda does on the section node of `{{#a}}{{/a}}`: the component it
returns has lost the section-end child, so the removal does happen, on the walker's copy. -/
theorem validateCallback_pops_copy :
    validateCallback
      (Component.mk [] { name := "a".toList, type := TagType.SectionBegin }
        [Component.mk [] { name := "a".toList, type := TagType.SectionEnd } [] 6] 0) 0
      ComponentPtr.nullptr =
      (WalkControl.Continue,
        Component.mk [] { name := "a".toList, type := TagType.SectionBegin } [] 0,
        ComponentPtr.nullptr) := by
  rfl

/-! ## Empty variable names -/

theorem trim_of_spaces (w : StringType) (hw : ∀ c ∈ w, isspace c = true) : trim w = [] := by
  rw [trim_eq]
  have : List.dropWhile isspace w = [] := List.dropWhile_eq_nil_iff.mpr hw
  rw [this]
  rfl

/-- C10, as amended. A tag whose interior `w` is empty or only whitespace parses to a single
`Variable` tag with the empty name, and rendering writes what the context returns for the
empty name: its value when that lookup succeeds, nothing when it fails. -/
theorem empty_variable_name (w : StringType) (hw : ∀ c ∈ w, isspace c = true) :
    ∃ m, Mustache.parse (braceDelimiterBegin ++ w ++ braceDelimiterEnd) = Except.ok m ∧
      m.isValid = true ∧
      m.rootComponent_.children =
        [Component.mk [] { name := [], type := TagType.Variable } [] 0] ∧
      ∀ ctx : Context, m.render ctx = some ((ctx.getVar []).getD []) := by
  have hn : NoBrace w := by
    refine ⟨fun h => ?_, fun h => ?_⟩
    · exact absurd (hw _ h) (by decide)
    · exact absurd (hw _ h) (by decide)
  have hlen : (braceDelimiterBegin ++ w ++ braceDelimiterEnd).length = w.length + 4 := by
    simp [braceDelimiterBegin, braceDelimiterEnd]
  have hscan : scanLoop (braceDelimiterBegin ++ w ++ braceDelimiterEnd) 2
      ⟨Component.new, 1, 0⟩ = Except.ok (ScanResult.completed
      (Component.mk [] {} [Component.mk [] { name := [], type := TagType.Variable } [] 0]
        npos)) := by
    rw [scanLoop_tag _ [] [] w [] 1 _ (by simp) rfl (by simp) hn, trim_of_spaces w hw]
    simp only [parseTagContents, pushOrPopSections, Component.tag, Tag.isSectionBegin,
      Tag.isSectionEnd,
      show (TagType.Variable == TagType.SectionBegin) = false from rfl,
      show (TagType.Variable == TagType.SectionBeginInverted) = false from rfl,
      show (TagType.Variable == TagType.SectionEnd) = false from rfl,
      Bool.or_self, Bool.false_eq_true, if_false]
    rw [scanLoop_done _ 0 _ (by simp [braceDelimiterBegin, braceDelimiterEnd]; omega)]
    rfl
  have hparse := parse_of_completed _ _ 2 (by rw [hlen]; omega) hscan
  have hvalid : walk (Component.mk [] {}
      [Component.mk [] { name := [], type := TagType.Variable } [] 0] npos)
      validateCallback ComponentPtr.nullptr = some ComponentPtr.nullptr := by
    rfl
  rw [hvalid] at hparse
  refine ⟨_, hparse, rfl, rfl, fun ctx => ?_⟩
  cases hg : ctx.getVar [] <;>
    simp [hg, Mustache.render, walk, walkTop, walkComponent, walkChildren,
      renderCallback, Component.height, heightList, Component.children, Component.tag,
      Component.isText, Component.isTag, Component.text]

/-- Instance of C10 as amended: the tag `{{  }}`. -/
theorem empty_variable_name_witness :
    ∃ m, Mustache.parse "\x7b\x7b  \x7d\x7d".toList = Except.ok m ∧
      m.isValid = true ∧
      m.rootComponent_.children =
        [Component.mk [] { name := [], type := TagType.Variable } [] 0] ∧
      ∀ ctx : Context, m.render ctx = some ((ctx.getVar []).getD []) :=
  empty_variable_name "  ".toList (by decide)

/-- C10 as stated fails: in a context that binds the empty name to `X`, rendering `{{}}`
writes `X`, because `render` passes the empty name to `getVar` like any other. -/
theorem empty_variable_name_looked_up :
    ∃ m, Mustache.parse "\x7b\x7b\x7d\x7d".toList = Except.ok m ∧
      m.rootComponent_.children =
        [Component.mk [] { name := [], type := TagType.Variable } [] 0] ∧
      m.render (Context.single [] "X".toList) = some "X".toList ∧
      m.render (Context.single [] "X".toList) ≠ some [] :=
  ⟨_, rfl, rfl, rfl, by decide⟩

/-! ## The tag classifier -/

theorem trimmed_trim (s : StringType) : Trimmed (trim s) := by
  rw [trim_eq]
  constructor
  · intro y hy
    have hpre : List.rdropWhile isspace (List.dropWhile isspace s) <+: List.dropWhile isspace s :=
      List.rdropWhile_prefix isspace _
    obtain ⟨r, hr⟩ := hpre
    have h1 := List.head?_dropWhile_not isspace s
    rw [← hr] at h1
    cases hl : List.rdropWhile isspace (List.dropWhile isspace s) with
    | nil => rw [hl] at hy; simp at hy
    | cons a as =>
      rw [hl] at hy h1
      simp only [List.head?_cons, Option.some.injEq] at hy
      subst hy
      simpa using h1
  · intro y hy
    by_cases hl : List.rdropWhile isspace (List.dropWhile isspace s) = []
    · rw [hl] at hy; simp at hy
    · have h2 := List.rdropWhile_last_not isspace (List.dropWhile isspace s) hl
      rw [List.getLast?_eq_getLast _ hl] at hy
      simp only [Option.some.injEq] at hy
      subst hy
      simpa using h2

/-- C11. Tag classifier: for a non-empty interior text `x :: rest` classified with the
triple-brace flag false, the type is fixed by the first character `x`, the name is the whole
text for `Variable` and `trim rest` otherwise; when the text is already trimmed the name has
no whitespace at either end. -/
theorem tag_classifier (x : Char) (rest : StringType) :
    (x = '#' → (parseTagContents false (x :: rest)).type = TagType.SectionBegin) ∧
    (x = '^' → (parseTagContents false (x :: rest)).type = TagType.SectionBeginInverted) ∧
    (x = '/' → (parseTagContents false (x :: rest)).type = TagType.SectionEnd) ∧
    (x = '>' → (parseTagContents false (x :: rest)).type = TagType.Partial) ∧
    (x = '&' → (parseTagContents false (x :: rest)).type = TagType.UnescapedVariable) ∧
    (x = '!' → (parseTagContents false (x :: rest)).type = TagType.Comment) ∧
    (x ∉ sigils → (parseTagContents false (x :: rest)).type = TagType.Variable) ∧
    ((parseTagContents false (x :: rest)).type = TagType.Variable →
      (parseTagContents false (x :: rest)).name = x :: rest) ∧
    ((parseTagContents false (x :: rest)).type ≠ TagType.Variable →
      (parseTagContents false (x :: rest)).name = trim rest) ∧
    (Trimmed (x :: rest) → Trimmed (parseTagContents false (x :: rest)).name) := by
  have key : parseTagContents false (x :: rest) =
      if (if x = '#' then TagType.SectionBegin
        else if x = '^' then TagType.SectionBeginInverted
        else if x = '/' then TagType.SectionEnd
        else if x = '>' then TagType.Partial
        else if x = '&' then TagType.UnescapedVariable
        else if x = '!' then TagType.Comment
        else TagType.Variable) = TagType.Variable then
        { name := x :: rest, type := (if x = '#' then TagType.SectionBegin
        else if x = '^' then TagType.SectionBeginInverted
        else if x = '/' then TagType.SectionEnd
        else if x = '>' then TagType.Partial
        else if x = '&' then TagType.UnescapedVariable
        else if x = '!' then TagType.Comment
        else TagType.Variable) }
      else { name := trim rest, type := (if x = '#' then TagType.SectionBegin
        else if x = '^' then TagType.SectionBeginInverted
        else if x = '/' then TagType.SectionEnd
        else if x = '>' then TagType.Partial
        else if x = '&' then TagType.UnescapedVariable
        else if x = '!' then TagType.Comment
        else TagType.Variable) } := by
    simp only [parseTagContents, Bool.false_eq_true, if_false]
  refine ⟨?_, ?_, ?_, ?_, ?_, ?_, ?_, ?_, ?_, ?_⟩
  · rintro rfl; rfl
  · rintro rfl; rfl
  · rintro rfl; rfl
  · rintro rfl; rfl
  · rintro rfl; rfl
  · rintro rfl; rfl
  · intro hx
    simp only [sigils, List.mem_cons, List.mem_singleton, not_or, List.not_mem_nil,
      or_false] at hx
    obtain ⟨h1, h2, h3, h4, h5, h6⟩ := hx
    rw [key]
    simp [h1, h2, h3, h4, h5, h6]
  · rw [key]
    generalize (if x = '#' then TagType.SectionBegin
        else if x = '^' then TagType.SectionBeginInverted
        else if x = '/' then TagType.SectionEnd
        else if x = '>' then TagType.Partial
        else if x = '&' then TagType.UnescapedVariable
        else if x = '!' then TagType.Comment
        else TagType.Variable) = ty
    by_cases hty : ty = TagType.Variable <;> simp [hty]
  · rw [key]
    generalize (if x = '#' then TagType.SectionBegin
        else if x = '^' then TagType.SectionBeginInverted
        else if x = '/' then TagType.SectionEnd
        else if x = '>' then TagType.Partial
        else if x = '&' then TagType.UnescapedVariable
        else if x = '!' then TagType.Comment
        else TagType.Variable) = ty
    by_cases hty : ty = TagType.Variable <;> simp [hty]
  · intro ht
    rw [key]
    generalize (if x = '#' then TagType.SectionBegin
        else if x = '^' then TagType.SectionBeginInverted
        else if x = '/' then TagType.SectionEnd
        else if x = '>' then TagType.Partial
        else if x = '&' then TagType.UnescapedVariable
        else if x = '!' then TagType.Comment
        else TagType.Variable) = ty
    by_cases hty : ty = TagType.Variable
    · simpa [hty] using ht
    · simpa [hty] using trimmed_trim rest

/-- Instance of C11: the trimmed interior `# name` is a `SectionBegin` named `name`. -/
theorem tag_classifier_witness :
    (parseTagContents false "# name".toList).type = TagType.SectionBegin ∧
    (parseTagContents false "# name".toList).name = trim " name".toList ∧
    (Trimmed "# name".toList → Trimmed (parseTagContents false "# name".toList).name) :=
  have h := tag_classifier '#' " name".toList
  ⟨h.1 rfl, h.2.2.2.2.2.2.2.2.1 (by rw [h.1 rfl]; decide), h.2.2.2.2.2.2.2.2.2⟩

/-! ## The shape of one pass of the scan -/

theorem findFrom_some (needle : StringType) (hn : needle ≠ []) (l : StringType) :
    ∀ (i p : Nat), findFrom needle l i = some p →
      i ≤ p ∧ needle <+: l.drop (p - i) ∧ (p - i) + needle.length ≤ l.length := by
  induction l with
  | nil =>
    intro i p h
    cases needle with
    | nil => exact absurd rfl hn
    | cons c cs => simp [findFrom] at h
  | cons c cs ih =>
    intro i p h
    unfold findFrom at h
    by_cases hp : needle.isPrefixOf (c :: cs) = true
    · simp only [hp, if_true, Option.some.injEq] at h
      subst h
      have hpre : needle <+: c :: cs := List.isPrefixOf_iff_prefix.mp hp
      refine ⟨Nat.le_refl _, by simpa using hpre, ?_⟩
      have := hpre.length_le
      omega
    · simp only [hp, if_false] at h
      obtain ⟨h1, h2, h3⟩ := ih (i + 1) p h
      have e : p - i = (p - (i + 1)) + 1 := by omega
      refine ⟨by omega, ?_, ?_⟩
      · rw [e]
        simpa using h2
      · rw [e, List.length_cons]
        omega

theorem find_some (input needle : StringType) (hn : needle ≠ []) (pos p : Nat)
    (h : find input needle pos = some p) :
    pos ≤ p ∧ p + needle.length ≤ input.length ∧ needle <+: input.drop p := by
  unfold find at h
  by_cases hle : pos ≤ input.length
  · simp only [hle, if_true] at h
    obtain ⟨h1, h2, h3⟩ := findFrom_some needle hn _ pos p h
    rw [List.length_drop] at h3
    refine ⟨h1, by omega, ?_⟩
    rw [List.drop_drop] at h2
    have e : pos + (p - pos) = p := by omega
    rw [e] at h2
    exact h2
  · simp [hle] at h

/-- Every pass of the loop body either finds no begin delimiter and ends the scan with the
remaining text, or finds one at some `p`, decides the triple-brace form without reading
outside the input, and then either reports the unterminated tag or appends the tag and
pushes or pops. -/
theorem scanStep_cases (input : StringType) (s : ScanState) :
    (find input currentDelimiterBegin s.inputPosition = none ∧
      scanStep input s = ScanStep.finished (pushChild (s.sections - 1)
        (Component.mk (substr input s.inputPosition (input.length - s.inputPosition)) {} []
          s.inputPosition) s.rootComponent_)) ∨
    (∃ p u, find input currentDelimiterBegin s.inputPosition = some p ∧
      (u = true → p ≠ input.length - 2) ∧
      ((find input (if u then braceDelimiterEndUnescaped else currentDelimiterEnd)
            (if u then p + 2 + 1 else p + 2) = none ∧
          scanStep input s = ScanStep.failed (unterminatedTagMessage p) (stepText input s p)) ∨
       (∃ e, find input (if u then braceDelimiterEndUnescaped else currentDelimiterEnd)
            (if u then p + 2 + 1 else p + 2) = some e ∧
          scanStep input s = pushOrPopSections s.sections
            (pushChild (s.sections - 1) (stepTag input u p e) (stepText input s p))
            (stepTag input u p e) (e + (if u then 3 else 2))))) := by
  cases hf : find input currentDelimiterBegin s.inputPosition with
  | none =>
    left
    refine ⟨rfl, ?_⟩
    unfold scanStep
    simp only [hf]
  | some p =>
    right
    obtain ⟨h1, h2, _⟩ := find_some input currentDelimiterBegin (by decide) _ p hf
    have hlb : currentDelimiterBegin.length = 2 := rfl
    rw [hlb] at h2
    have key : ∃ u : Bool, (u = true → p ≠ input.length - 2) ∧
        (if (currentDelimiterIsBrace && p != input.length - 2) = true then
          match charAt input (p + 2) with
          | none => none
          | some c => some (c == Char.ofNat 123)
        else some false) = some u := by
      by_cases hq : p = input.length - 2
      · refine ⟨false, by simp, ?_⟩
        simp [hq]
      · have hlt : p + 2 < input.length := by omega
        have hc : charAt input (p + 2) = some (input.get ⟨p + 2, hlt⟩) := by
          simp [charAt, List.getElem?_eq_getElem hlt]
        refine ⟨input.get ⟨p + 2, hlt⟩ == Char.ofNat 123, fun _ => hq, ?_⟩
        simp [hq, currentDelimiterIsBrace, hc]
    obtain ⟨u, hu1, hu⟩ := key
    refine ⟨p, u, rfl, hu1, ?_⟩
    cases he : find input (if u then braceDelimiterEndUnescaped else currentDelimiterEnd)
        (if u then p + 2 + 1 else p + 2) with
    | none =>
      left
      refine ⟨rfl, ?_⟩
      unfold scanStep
      simp only [hf, hlb, hu]
      cases u <;> simp only [Bool.false_eq_true, if_false, if_true] at he ⊢ <;>
        simp only [he] <;> rfl
    | some e =>
      right
      refine ⟨e, rfl, ?_⟩
      unfold scanStep
      simp only [hf, hlb, hu]
      cases u <;> simp only [Bool.false_eq_true, if_false, if_true] at he ⊢ <;>
        simp only [he] <;> rfl

theorem pushOrPopSections_cases (k : Nat) (root comp : Component) (n : Nat) :
    (comp.tag.isSectionBegin = true ∧
      pushOrPopSections k root comp n = ScanStep.next ⟨root, k + 1, n⟩) ∨
    (comp.tag.isSectionBegin = false ∧ comp.tag.isSectionEnd = true ∧ k = 1 ∧
      pushOrPopSections k root comp n =
        ScanStep.failed (unmatchedSectionEndMessage comp.tag.name comp.position) root) ∨
    (comp.tag.isSectionBegin = false ∧ comp.tag.isSectionEnd = true ∧ k ≠ 1 ∧
      pushOrPopSections k root comp n = ScanStep.next ⟨root, k - 1, n⟩) ∨
    (comp.tag.isSectionBegin = false ∧ comp.tag.isSectionEnd = false ∧
      pushOrPopSections k root comp n = ScanStep.next ⟨root, k, n⟩) := by
  unfold pushOrPopSections
  by_cases h1 : comp.tag.isSectionBegin = true
  · left; simp [h1]
  · right
    have h1f : comp.tag.isSectionBegin = false := by simpa using h1
    by_cases h2 : comp.tag.isSectionEnd = true
    · by_cases h3 : k = 1
      · left; simp [h1f, h2, h3]
      · right; left; simp [h1f, h2, h3]
    · right; right
      have h2f : comp.tag.isSectionEnd = false := by simpa using h2
      simp [h1f, h2f]

theorem scanStep_ne_outOfRange (input : StringType) (s : ScanState) :
    scanStep input s ≠ ScanStep.outOfRange := by
  rcases scanStep_cases input s with ⟨_, h⟩ | ⟨p, u, _, _, ⟨_, h⟩ | ⟨e, _, h⟩⟩
  · rw [h]; exact fun h => ScanStep.noConfusion h
  · rw [h]; exact fun h => ScanStep.noConfusion h
  · rw [h]
    rcases pushOrPopSections_cases s.sections
      (pushChild (s.sections - 1) (stepTag input u p e) (stepText input s p))
      (stepTag input u p e) (e + (if u then 3 else 2)) with
      ⟨_, h⟩ | ⟨_, _, _, h⟩ | ⟨_, _, _, h⟩ | ⟨_, _, h⟩ <;>
      (rw [h]; exact fun h => ScanStep.noConfusion h)

theorem scanStep_next_progress (input : StringType) (s s1 : ScanState)
    (h : scanStep input s = ScanStep.next s1) :
    s.inputPosition + 4 ≤ s1.inputPosition ∧ s1.inputPosition ≤ input.length := by
  rcases scanStep_cases input s with ⟨_, h0⟩ | ⟨p, u, hp, _, ⟨_, h0⟩ | ⟨e, he, h0⟩⟩
  · rw [h0] at h; exact ScanStep.noConfusion h
  · rw [h0] at h; exact ScanStep.noConfusion h
  · obtain ⟨h1, _, _⟩ := find_some input currentDelimiterBegin (by decide) _ _ hp
    have hpos : s1.inputPosition = e + (if u then 3 else 2) := by
      rw [h0] at h
      rcases pushOrPopSections_cases s.sections
        (pushChild (s.sections - 1) (stepTag input u p e) (stepText input s p))
        (stepTag input u p e) (e + (if u then 3 else 2)) with
        ⟨_, h2⟩ | ⟨_, _, _, h2⟩ | ⟨_, _, _, h2⟩ | ⟨_, _, h2⟩ <;> rw [h2] at h
      · simp only [ScanStep.next.injEq] at h; rw [← h]
      · exact ScanStep.noConfusion h
      · simp only [ScanStep.next.injEq] at h; rw [← h]
      · simp only [ScanStep.next.injEq] at h; rw [← h]
    cases u with
    | false =>
      simp only [Bool.false_eq_true, if_false] at he hpos
      obtain ⟨h3, h4, _⟩ := find_some input currentDelimiterEnd (by decide) _ _ he
      have hle : currentDelimiterEnd.length = 2 := rfl
      rw [hle] at h4
      omega
    | true =>
      simp only [if_true] at he hpos
      obtain ⟨h3, h4, _⟩ := find_some input braceDelimiterEndUnescaped (by decide) _ _ he
      have hle : braceDelimiterEndUnescaped.length = 3 := rfl
      rw [hle] at h4
      omega

theorem scanLoop_total (input : StringType) :
    ∀ (fuel : Nat) (s : ScanState), s.inputPosition ≤ input.length →
      (input.length - s.inputPosition) / 4 + 1 ≤ fuel →
      ∃ r, scanLoop input fuel s = Except.ok r := by
  intro fuel
  induction fuel with
  | zero => intro s _ h; omega
  | succ f ih =>
    intro s hle hfuel
    unfold scanLoop
    by_cases hp : s.inputPosition = input.length
    · exact ⟨ScanResult.completed s.rootComponent_, by simp [hp]⟩
    · simp only [hp, if_false]
      cases hs : scanStep input s with
      | next s1 =>
        obtain ⟨h1, h2⟩ := scanStep_next_progress input s s1 hs
        exact ih s1 h2 (by omega)
      | finished root => exact ⟨_, rfl⟩
      | failed msg root => exact ⟨_, rfl⟩
      | outOfRange => exact absurd hs (scanStep_ne_outOfRange input s)

/-! ## The tree walker -/

theorem height_eq (comp : Component) : comp.height = heightList comp.children + 1 := by
  cases comp with
  | mk t g cs p => simp [Component.height, Component.children]

theorem height_le_of_mem (l : List Component) (c : Component) (h : c ∈ l) :
    c.height ≤ heightList l := by
  induction l with
  | nil => simp at h
  | cons x xs ih =>
    simp only [heightList]
    rcases List.mem_cons.mp h with e | e
    · subst e; exact Nat.le_max_left _ _
    · exact Nat.le_trans (ih e) (Nat.le_max_right _ _)

theorem control_cases (c : WalkControl) :
    c = WalkControl.Continue ∨ c = WalkControl.Stop ∨ c = WalkControl.Skip := by
  cases c <;> simp

/-- With a callback that always returns `Continue` and leaves the child sequence of its
component as it was, the recursive walk calls it on the component and on everything below
it in pre-order, threading the state through the calls. -/
theorem walkComponent_preorder {σ : Type} (callback : WalkCallback σ)
    (hc : ∀ comp depth st, (callback comp depth st).1 = WalkControl.Continue)
    (hch : ∀ comp depth st, (callback comp depth st).2.1.children = comp.children) :
    ∀ (fuel : Nat) (comp : Component) (depth : Nat) (st : σ), comp.height ≤ fuel →
      walkComponent callback fuel comp depth st =
        some (WalkControl.Continue,
          (comp.preorder depth).foldl (fun st cd => (callback cd.1 cd.2 st).2.2) st) := by
  intro fuel
  induction fuel with
  | zero =>
    intro comp depth st h
    rw [height_eq] at h
    omega
  | succ f ih =>
    intro comp depth st h
    have hlist : ∀ (l : List Component) (d : Nat) (st : σ), heightList l ≤ f →
        walkChildren (walkComponent callback f) l d WalkControl.Continue st =
          some (WalkControl.Continue,
            (preorderList l d).foldl (fun st cd => (callback cd.1 cd.2 st).2.2) st) := by
      intro l
      induction l with
      | nil => intro d st _; simp [walkChildren, preorderList]
      | cons x xs ihl =>
        intro d st hl
        simp only [heightList] at hl
        have hx : x.height ≤ f := Nat.le_trans (Nat.le_max_left _ _) hl
        have hxs : heightList xs ≤ f := Nat.le_trans (Nat.le_max_right _ _) hl
        simp only [walkChildren, ih x d st hx, preorderList, List.foldl_append]
        simp only [show (WalkControl.Continue = WalkControl.Stop) = False from by simp,
          show (WalkControl.Continue = WalkControl.Skip) = False from by simp, if_false]
        exact ihl d _ hxs
    cases comp with
    | mk t g cs p =>
      have h1 := hc (Component.mk t g cs p) depth st
      have h2 : (callback (Component.mk t g cs p) depth st).2.1.children = cs :=
        hch (Component.mk t g cs p) depth st
      have hcs : heightList cs ≤ f := by
        simp only [Component.height] at h
        omega
      unfold walkComponent
      rcases hcb : callback (Component.mk t g cs p) depth st with ⟨control, comp1, st1⟩
      rw [hcb] at h1 h2
      change control = WalkControl.Continue at h1
      change comp1.children = cs at h2
      subst h1
      simp only [show (WalkControl.Continue = WalkControl.Stop) = False from by simp,
        show (WalkControl.Continue = WalkControl.Skip) = False from by simp, if_false,
        Component.preorder, List.foldl_cons, hcb]
      rw [h2]
      exact hlist cs (depth + 1) st1 hcs

theorem walkTop_preorder {σ : Type} (callback : WalkCallback σ)
    (hc : ∀ comp depth st, (callback comp depth st).1 = WalkControl.Continue)
    (hch : ∀ comp depth st, (callback comp depth st).2.1.children = comp.children)
    (fuel : Nat) :
    ∀ (l : List Component) (st : σ), heightList l ≤ fuel →
      walkTop (walkComponent callback fuel) l st =
        some ((preorderList l 0).foldl (fun st cd => (callback cd.1 cd.2 st).2.2) st) := by
  intro l
  induction l with
  | nil => intro st _; simp [walkTop, preorderList]
  | cons x xs ihl =>
    intro st hl
    simp only [heightList] at hl
    have hx : x.height ≤ fuel := Nat.le_trans (Nat.le_max_left _ _) hl
    have hxs : heightList xs ≤ fuel := Nat.le_trans (Nat.le_max_right _ _) hl
    simp only [walkTop, walkComponent_preorder callback hc hch fuel x 0 st hx, preorderList,
      List.foldl_append, ne_eq, not_true_eq_false, if_false]
    exact ihl _ hxs

/-- C12, as amended. Tree walker order: for every tree and every callback that always
returns `Continue` and does not change the child sequence of the component it is handed,
`walk` calls the callback exactly on the nodes below the root, once each, in depth-first
pre-order, with the nesting level as depth (0 for the root's children): the final state is
the state threaded through these calls in that order. -/
theorem walk_preorder {σ : Type} (root : Component) (callback : WalkCallback σ) (st : σ)
    (hc : ∀ comp depth st, (callback comp depth st).1 = WalkControl.Continue)
    (hch : ∀ comp depth st, (callback comp depth st).2.1.children = comp.children) :
    walk root callback st =
      some ((preorderList root.children 0).foldl
        (fun st cd => (callback cd.1 cd.2 st).2.2) st) := by
  unfold walk
  exact walkTop_preorder callback hc hch _ _ st (by rw [height_eq]; omega)

/-- Instance of C12 as amended: `print` on a tree with a section. -/
theorem walk_preorder_witness :
    walk (Component.mk [] {}
        [Component.mk [] { name := "a".toList, type := TagType.SectionBegin }
          [Component.mk "x".toList {} [] 6] 0,
         Component.mk "y".toList {} [] 7] npos) printCallback [] =
      some ((preorderList
        [Component.mk [] { name := "a".toList, type := TagType.SectionBegin }
          [Component.mk "x".toList {} [] 6] 0,
         Component.mk "y".toList {} [] 7] 0).foldl
        (fun st cd => (printCallback cd.1 cd.2 st).2.2) []) :=
  walk_preorder _ printCallback []
    (fun comp depth st => by
      cases h : comp.isTag <;> simp [printCallback, h])
    (fun comp depth st => by
      cases h : comp.isTag <;> simp [printCallback, h])

/-- C12 as stated fails for a callback that changes the children of the component it is
handed: on the tree of `{{#a}}{{/a}}`, `popBackCallback` always returns `Continue`, yet it is
called on the section node only; the section-end node below it is never visited. -/
theorem walk_skips_removed_child :
    (∀ comp depth st, (popBackCallback comp depth st).1 = WalkControl.Continue) ∧
    ∃ m, Mustache.parse "\x7b\x7b#a\x7d\x7d\x7b\x7b/a\x7d\x7d".toList = Except.ok m ∧
      preorderList m.rootComponent_.children 0 =
        [(Component.mk [] { name := "a".toList, type := TagType.SectionBegin }
            [Component.mk [] { name := "a".toList, type := TagType.SectionEnd } [] 6] 0, 0),
         (Component.mk [] { name := "a".toList, type := TagType.SectionEnd } [] 6, 1)] ∧
      walk m.rootComponent_ popBackCallback [] =
        some [(Component.mk [] { name := "a".toList, type := TagType.SectionBegin }
            [Component.mk [] { name := "a".toList, type := TagType.SectionEnd } [] 6] 0, 0)] :=
  ⟨fun _ _ _ => rfl, _, rfl, rfl, rfl⟩

/-! ## Stopping a walk -/

theorem walkComponent_stop_last {σ : Type} (callback : WalkCallback σ) :
    ∀ (fuel : Nat) (comp : Component) (depth : Nat) (st : σ)
      (tr : List (Component × Nat × WalkControl)) (ctl : WalkControl) (st1 : σ)
      (tr1 : List (Component × Nat × WalkControl)),
      walkComponent (traced callback) fuel comp depth (st, tr) = some (ctl, (st1, tr1)) →
      (∀ e ∈ tr, e.2.2 ≠ WalkControl.Stop) →
      (ctl = WalkControl.Continue ∧ ∀ e ∈ tr1, e.2.2 ≠ WalkControl.Stop) ∨
      (ctl = WalkControl.Stop ∧ ∀ e ∈ tr1.dropLast, e.2.2 ≠ WalkControl.Stop) := by
  intro fuel
  induction fuel with
  | zero => intro comp depth st tr ctl st1 tr1 h; simp [walkComponent] at h
  | succ f ih =>
    intro comp depth st tr ctl st1 tr1 h htr
    have hlist : ∀ (l : List Component) (d : Nat) (c0 : WalkControl) (st : σ)
        (tr : List (Component × Nat × WalkControl)) (ctl : WalkControl) (st1 : σ)
        (tr1 : List (Component × Nat × WalkControl)),
        walkChildren (walkComponent (traced callback) f) l d c0 (st, tr) =
          some (ctl, (st1, tr1)) →
        c0 = WalkControl.Continue →
        (∀ e ∈ tr, e.2.2 ≠ WalkControl.Stop) →
        (ctl = WalkControl.Continue ∧ ∀ e ∈ tr1, e.2.2 ≠ WalkControl.Stop) ∨
        (ctl = WalkControl.Stop ∧ ∀ e ∈ tr1.dropLast, e.2.2 ≠ WalkControl.Stop) := by
      intro l
      induction l with
      | nil =>
        intro d c0 st tr ctl st1 tr1 h hc0 htr
        simp only [walkChildren, Option.some.injEq, Prod.mk.injEq] at h
        obtain ⟨h1, _, h3⟩ := h
        subst h1 h3
        exact Or.inl ⟨hc0, htr⟩
      | cons x xs ihl =>
        intro d c0 st tr ctl st1 tr1 h _ htr
        simp only [walkChildren] at h
        cases hv : walkComponent (traced callback) f x d (st, tr) with
        | none => rw [hv] at h; simp at h
        | some r =>
          obtain ⟨c2, st2, tr2⟩ := r
          rw [hv] at h
          simp only at h
          rcases ih x d st tr c2 st2 tr2 hv htr with ⟨hc2, hn⟩ | ⟨hc2, hn⟩
          · subst hc2
            simp only [show (WalkControl.Continue = WalkControl.Stop) = False from by simp,
              show (WalkControl.Continue = WalkControl.Skip) = False from by simp,
              if_false] at h
            exact ihl d _ st2 tr2 ctl st1 tr1 h rfl hn
          · subst hc2
            simp only [if_true, Option.some.injEq, Prod.mk.injEq] at h
            obtain ⟨h1, _, h3⟩ := h
            subst h1 h3
            exact Or.inr ⟨rfl, hn⟩
    unfold walkComponent at h
    rcases hcb : callback comp depth st with ⟨control, comp1, st2⟩
    simp only [traced, hcb] at h
    rcases control_cases control with hc | hc | hc <;> subst hc
    · simp only [show (WalkControl.Continue = WalkControl.Stop) = False from by simp,
        show (WalkControl.Continue = WalkControl.Skip) = False from by simp, if_false] at h
      refine hlist _ _ _ _ _ ctl st1 tr1 h rfl ?_
      intro e he
      rcases List.mem_append.mp he with h1 | h1
      · exact htr e h1
      · simp only [List.mem_singleton] at h1
        subst h1
        simp
    · simp only [if_true, Option.some.injEq, Prod.mk.injEq] at h
      obtain ⟨h1, _, h3⟩ := h
      subst h1 h3
      right
      refine ⟨rfl, ?_⟩
      simpa using htr
    · simp only [show (WalkControl.Skip = WalkControl.Stop) = False from by simp, if_false,
        if_true, Option.some.injEq, Prod.mk.injEq] at h
      obtain ⟨h1, _, h3⟩ := h
      subst h1 h3
      left
      refine ⟨rfl, ?_⟩
      intro e he
      rcases List.mem_append.mp he with h1 | h1
      · exact htr e h1
      · simp only [List.mem_singleton] at h1
        subst h1
        simp

theorem walkTop_stop_last {σ : Type} (callback : WalkCallback σ) (fuel : Nat) :
    ∀ (l : List Component) (st : σ) (tr : List (Component × Nat × WalkControl)) (st1 : σ)
      (tr1 : List (Component × Nat × WalkControl)),
      walkTop (walkComponent (traced callback) fuel) l (st, tr) = some (st1, tr1) →
      (∀ e ∈ tr, e.2.2 ≠ WalkControl.Stop) →
      ∀ e ∈ tr1.dropLast, e.2.2 ≠ WalkControl.Stop := by
  intro l
  induction l with
  | nil =>
    intro st tr st1 tr1 h htr
    simp only [walkTop, Option.some.injEq, Prod.mk.injEq] at h
    obtain ⟨_, h2⟩ := h
    subst h2
    exact fun e he => htr e (List.dropLast_subset _ he)
  | cons x xs ihl =>
    intro st tr st1 tr1 h htr
    simp only [walkTop] at h
    cases hv : walkComponent (traced callback) fuel x 0 (st, tr) with
    | none => rw [hv] at h; simp at h
    | some r =>
      obtain ⟨c2, st2, tr2⟩ := r
      rw [hv] at h
      simp only at h
      rcases walkComponent_stop_last callback fuel x 0 st tr c2 st2 tr2 hv htr with
        ⟨hc2, hn⟩ | ⟨hc2, hn⟩
      · subst hc2
        simp only [ne_eq, not_true_eq_false, if_false] at h
        exact ihl st2 tr2 st1 tr1 h hn
      · subst hc2
        simp only [ne_eq, show (WalkControl.Stop = WalkControl.Continue) = False from by simp,
          not_false_eq_true, if_true, Option.some.injEq, Prod.mk.injEq] at h
        obtain ⟨_, h3⟩ := h
        subst h3
        exact hn

/-- C13. Tree walker Stop: for every tree and callback, in the record of the calls made
during a walk, a call that returned `Stop` is the last call: no node is visited after it. -/
theorem stop_ends_walk {σ : Type} (root : Component) (callback : WalkCallback σ) (st st1 : σ)
    (trace : List (Component × Nat × WalkControl))
    (h : walk root (traced callback) (st, []) = some (st1, trace))
    (i : Nat) (hi : i < trace.length) (hstop : (trace.get ⟨i, hi⟩).2.2 = WalkControl.Stop) :
    i + 1 = trace.length := by
  have h1 := walkTop_stop_last callback _ _ st [] st1 trace h (by simp)
  by_contra hne
  have hlt : i < trace.dropLast.length := by
    rw [List.length_dropLast]
    omega
  have hmem : trace.dropLast.get ⟨i, hlt⟩ ∈ trace.dropLast := List.get_mem _ _ _
  have heq : trace.dropLast.get ⟨i, hlt⟩ = trace.get ⟨i, hi⟩ := by
    simp [List.getElem_dropLast]
  rw [heq] at hmem
  exact h1 _ hmem hstop

/-- Instance of C13: the validation lambda on the tree of `{{#a}}{{/b}}tail` stops at the
section node; its child and the text after it are not visited. -/
theorem stop_ends_walk_witness :
    walk (Component.mk [] {}
        [Component.mk [] { name := "a".toList, type := TagType.SectionBegin }
          [Component.mk [] { name := "b".toList, type := TagType.SectionEnd } [] 6] 0,
         Component.mk "tail".toList {} [] 12] npos) (traced validateCallback)
        (ComponentPtr.nullptr, []) =
      some (ComponentPtr.loopCopy,
        [(Component.mk [] { name := "a".toList, type := TagType.SectionBegin }
          [Component.mk [] { name := "b".toList, type := TagType.SectionEnd } [] 6] 0,
          0, WalkControl.Stop)]) ∧
    0 + 1 = [(Component.mk [] { name := "a".toList, type := TagType.SectionBegin }
          [Component.mk [] { name := "b".toList, type := TagType.SectionEnd } [] 6] 0,
          0, WalkControl.Stop)].length :=
  ⟨rfl, stop_ends_walk
    (Component.mk [] {}
        [Component.mk [] { name := "a".toList, type := TagType.SectionBegin }
          [Component.mk [] { name := "b".toList, type := TagType.SectionEnd } [] 6] 0,
         Component.mk "tail".toList {} [] 12] npos) validateCallback ComponentPtr.nullptr
    ComponentPtr.loopCopy
    [(Component.mk [] { name := "a".toList, type := TagType.SectionBegin }
          [Component.mk [] { name := "b".toList, type := TagType.SectionEnd } [] 6] 0,
          0, WalkControl.Stop)] rfl 0 (by decide) rfl⟩

/-! ## The validation walk -/

theorem heightList_le_of_subset (l1 l2 : List Component) (h : ∀ c ∈ l1, c ∈ l2) :
    heightList l1 ≤ heightList l2 := by
  induction l1 with
  | nil => simp [heightList]
  | cons x xs ih =>
    simp only [heightList]
    exact Nat.max_le.mpr ⟨height_le_of_mem l2 x (h x (by simp)),
      ih (fun c hc => h c (by simp [hc]))⟩

theorem validateCallback_cases (comp : Component) (depth : Nat) (st : ComponentPtr) :
    (∃ comp1, validateCallback comp depth st = (WalkControl.Continue, comp1, st) ∧
      heightList comp1.children ≤ heightList comp.children) ∨
    validateCallback comp depth st = (WalkControl.Stop, comp, ComponentPtr.loopCopy) := by
  unfold validateCallback
  by_cases hb : comp.tag.isSectionBegin = true
  · simp only [hb, Bool.not_true, Bool.false_eq_true, if_false]
    cases hl : comp.children.getLast? with
    | none => right; rfl
    | some back =>
      simp only
      by_cases hbad : (!back.tag.isSectionEnd || back.tag.name != comp.tag.name) = true
      · right; simp [hbad]
      · left
        refine ⟨comp.setChildren comp.children.dropLast, by simp [hbad], ?_⟩
        cases comp with
        | mk t g cs p =>
          exact heightList_le_of_subset _ _ (fun c hc => List.dropLast_subset _ hc)
  · left
    exact ⟨comp, by simp [hb], Nat.le_refl _⟩

theorem walkComponent_validate :
    ∀ (fuel : Nat) (comp : Component) (depth : Nat) (st : ComponentPtr),
      comp.height ≤ fuel →
      ∃ ctl st1, walkComponent validateCallback fuel comp depth st = some (ctl, st1) ∧
        (ctl = WalkControl.Continue ∨
          (ctl = WalkControl.Stop ∧ st1 = ComponentPtr.loopCopy)) := by
  intro fuel
  induction fuel with
  | zero =>
    intro comp depth st h
    rw [height_eq] at h
    omega
  | succ f ih =>
    intro comp depth st h
    have hlist : ∀ (l : List Component) (d : Nat) (st : ComponentPtr),
        heightList l ≤ f →
        ∃ ctl st1, walkChildren (walkComponent validateCallback f) l d WalkControl.Continue st =
            some (ctl, st1) ∧
          (ctl = WalkControl.Continue ∨
            (ctl = WalkControl.Stop ∧ st1 = ComponentPtr.loopCopy)) := by
      intro l
      induction l with
      | nil => intro d st _; exact ⟨_, _, rfl, Or.inl rfl⟩
      | cons x xs ihl =>
        intro d st hl
        simp only [heightList] at hl
        have hx : x.height ≤ f := Nat.le_trans (Nat.le_max_left _ _) hl
        have hxs : heightList xs ≤ f := Nat.le_trans (Nat.le_max_right _ _) hl
        obtain ⟨c2, st2, hv, hc2⟩ := ih x d st hx
        simp only [walkChildren, hv]
        rcases hc2 with hc2 | ⟨hc2, hs⟩
        · subst hc2
          simp only [show (WalkControl.Continue = WalkControl.Stop) = False from by simp,
            show (WalkControl.Continue = WalkControl.Skip) = False from by simp, if_false]
          exact ihl d st2 hxs
        · subst hc2
          exact ⟨WalkControl.Stop, st2, by simp, Or.inr ⟨rfl, hs⟩⟩
    rw [height_eq] at h
    unfold walkComponent
    rcases validateCallback_cases comp depth st with ⟨comp1, hcb, hh⟩ | hcb
    · rw [hcb]
      simp only [show (WalkControl.Continue = WalkControl.Stop) = False from by simp,
        show (WalkControl.Continue = WalkControl.Skip) = False from by simp, if_false]
      exact hlist _ _ _ (by omega)
    · rw [hcb]
      exact ⟨WalkControl.Stop, ComponentPtr.loopCopy, by simp, Or.inr ⟨rfl, rfl⟩⟩

theorem walkTop_validate (fuel : Nat) :
    ∀ (l : List Component) (st : ComponentPtr), heightList l ≤ fuel →
      ∃ st1, walkTop (walkComponent validateCallback fuel) l st = some st1 := by
  intro l
  induction l with
  | nil => intro st _; exact ⟨_, rfl⟩
  | cons x xs ihl =>
    intro st hl
    simp only [heightList] at hl
    have hx : x.height ≤ fuel := Nat.le_trans (Nat.le_max_left _ _) hl
    have hxs : heightList xs ≤ fuel := Nat.le_trans (Nat.le_max_right _ _) hl
    obtain ⟨c2, st2, hv, hc2⟩ := walkComponent_validate fuel x 0 st hx
    simp only [walkTop, hv]
    rcases hc2 with hc2 | ⟨hc2, _⟩
    · subst hc2
      simp only [ne_eq, not_true_eq_false, if_false]
      exact ihl st2 hxs
    · subst hc2
      exact ⟨st2, by simp⟩

/-- The validation walk returns for every tree. -/
theorem walk_validate_total (root : Component) :
    ∃ st1, walk root validateCallback ComponentPtr.nullptr = some st1 :=
  walkTop_validate _ _ _ (by rw [height_eq]; omega)

/-- For every input `parse` either returns an engine (a tree, with or without an error
message) or, the validation walk having set `invalidStartPosition`, reaches the read
through that pointer at main.cpp 349. It never runs out of budget and never throws. -/
theorem parse_returns (input : StringType) :
    (∃ m, Mustache.parse input = Except.ok m) ∨
      Mustache.parse input = Except.error Abort.danglingRead := by
  obtain ⟨r, hr⟩ := scanLoop_total input (input.length + 1) ⟨Component.new, 1, 0⟩
    (Nat.zero_le _) (by
      have := Nat.div_le_self (input.length - 0) 4
      simp only [Nat.sub_zero] at this ⊢
      omega)
  unfold Mustache.parse
  rw [hr]
  cases r with
  | returned msg root => exact Or.inl ⟨_, rfl⟩
  | completed root =>
    obtain ⟨st1, hst⟩ := walk_validate_total root
    simp only [hst]
    cases st1 with
    | nullptr => exact Or.inl ⟨_, rfl⟩
    | loopCopy => exact Or.inr rfl

/-- What holds of C20. Every pass of the loop body that reaches its end moves the cursor
forward and leaves it at most at the input length; the loop is therefore left within
`length / 4 + 1` passes, which is at most `length` for a non-empty input; and `parse`
either returns an engine (a tree, with or without an error message) or reaches the read
through `invalidStartPosition` at main.cpp 349. -/
theorem scan_terminates (input : StringType) :
    (∀ s s1, scanStep input s = ScanStep.next s1 →
      s.inputPosition < s1.inputPosition ∧ s1.inputPosition ≤ input.length) ∧
    (∀ fuel, input.length / 4 + 1 ≤ fuel →
      ∃ r, scanLoop input fuel ⟨Component.new, 1, 0⟩ = Except.ok r) ∧
    (input ≠ [] → ∃ r, scanLoop input input.length ⟨Component.new, 1, 0⟩ = Except.ok r) ∧
    ((∃ m, Mustache.parse input = Except.ok m) ∨
      Mustache.parse input = Except.error Abort.danglingRead) := by
  refine ⟨fun s s1 h => ?_, fun fuel hf => ?_, fun hne => ?_, parse_returns input⟩
  · have := scanStep_next_progress input s s1 h
    omega
  · exact scanLoop_total input fuel _ (Nat.zero_le _) (by simpa using hf)
  · refine scanLoop_total input _ _ (Nat.zero_le _) ?_
    have h1 := List.length_pos.mpr hne
    simp only [Nat.sub_zero]
    omega

/-- Instance of the termination of the scan: the scan of `Hi {{name}}.` ends within 12
passes. -/
theorem scan_terminates_witness :
    ∃ r, scanLoop "Hi \x7b\x7bname\x7d\x7d.".toList 12 ⟨Component.new, 1, 0⟩ = Except.ok r :=
  (scan_terminates "Hi \x7b\x7bname\x7d\x7d.".toList).2.2.1 (by decide)

/-- C20 does not hold of the code in its last part. On `{{#a}}{{#b}}{{/c}}{{/a}}` the scan
ends after four passes, with the stack back at the root, and the validation walk ends with
`invalidStartPosition` set (section `b` has no matching end tag); `parse` then does not
return a tree or an error of its own making: it reads the name and the position for the
message from the walker's destroyed loop copy. -/
theorem parse_error_branch_dangling_read :
    scanLoop "\x7b\x7b#a\x7d\x7d\x7b\x7b#b\x7d\x7d\x7b\x7b/c\x7d\x7d\x7b\x7b/a\x7d\x7d".toList 5
        ⟨Component.new, 1, 0⟩ =
      Except.ok (ScanResult.completed
        (Component.mk [] {}
          [Component.mk [] { name := "a".toList, type := TagType.SectionBegin }
            [Component.mk [] { name := "b".toList, type := TagType.SectionBegin }
              [Component.mk [] { name := "c".toList, type := TagType.SectionEnd } [] 12] 6,
             Component.mk [] { name := "a".toList, type := TagType.SectionEnd } [] 18] 0]
          npos)) ∧
    scanLoopSections
        "\x7b\x7b#a\x7d\x7d\x7b\x7b#b\x7d\x7d\x7b\x7b/c\x7d\x7d\x7b\x7b/a\x7d\x7d".toList 5
        ⟨Component.new, 1, 0⟩ = some 1 ∧
    walk (Component.mk [] {}
          [Component.mk [] { name := "a".toList, type := TagType.SectionBegin }
            [Component.mk [] { name := "b".toList, type := TagType.SectionBegin }
              [Component.mk [] { name := "c".toList, type := TagType.SectionEnd } [] 12] 6,
             Component.mk [] { name := "a".toList, type := TagType.SectionEnd } [] 18] 0]
          npos)
      validateCallback ComponentPtr.nullptr = some ComponentPtr.loopCopy ∧
    Mustache.parse
        "\x7b\x7b#a\x7d\x7d\x7b\x7b#b\x7d\x7d\x7b\x7b/c\x7d\x7d\x7b\x7b/a\x7d\x7d".toList =
      Except.error Abort.danglingRead :=
  ⟨rfl, rfl, rfl, rfl⟩

/-! ## How a parse can end -/

theorem parse_cases (input : StringType) (m : Mustache) (h : Mustache.parse input = Except.ok m) :
    scanLoop input (input.length + 1) ⟨Component.new, 1, 0⟩ =
        Except.ok (ScanResult.returned m.errorMessage_ m.rootComponent_) ∨
    (scanLoop input (input.length + 1) ⟨Component.new, 1, 0⟩ =
        Except.ok (ScanResult.completed m.rootComponent_) ∧
      walk m.rootComponent_ validateCallback ComponentPtr.nullptr = some ComponentPtr.nullptr ∧
      m.errorMessage_ = []) := by
  unfold Mustache.parse at h
  cases hs : scanLoop input (input.length + 1) ⟨Component.new, 1, 0⟩ with
  | error e => rw [hs] at h; simp at h
  | ok r =>
    rw [hs] at h
    cases r with
    | returned msg root =>
      simp only [Except.ok.injEq] at h
      subst h
      exact Or.inl rfl
    | completed root =>
      simp only at h
      right
      cases hw : walk root validateCallback ComponentPtr.nullptr with
      | none => rw [hw] at h; simp at h
      | some st =>
        rw [hw] at h
        cases st with
        | nullptr =>
          simp only [Except.ok.injEq] at h
          subst h
          exact ⟨rfl, hw, rfl⟩
        | loopCopy => simp at h

theorem scanLoop_returned_message (input : StringType) :
    ∀ (fuel : Nat) (s : ScanState) (msg : StringType) (root : Component),
      scanLoop input fuel s = Except.ok (ScanResult.returned msg root) →
      (∃ p, msg = unterminatedTagMessage p) ∨
      (∃ name p, msg = unmatchedSectionEndMessage name p) := by
  intro fuel
  induction fuel with
  | zero => intro s msg root h; simp [scanLoop] at h
  | succ f ih =>
    intro s msg root h
    unfold scanLoop at h
    by_cases hp : s.inputPosition = input.length
    · simp [hp] at h
    · simp only [hp, if_false] at h
      cases hs : scanStep input s with
      | next s1 => rw [hs] at h; exact ih s1 msg root h
      | finished r => rw [hs] at h; simp at h
      | outOfRange => rw [hs] at h; simp at h
      | failed msg1 r =>
        rw [hs] at h
        simp only [Except.ok.injEq, ScanResult.returned.injEq] at h
        obtain ⟨h1, _⟩ := h
        subst h1
        rcases scanStep_cases input s with ⟨_, h0⟩ | ⟨p, u, _, _, ⟨_, h0⟩ | ⟨e, _, h0⟩⟩
        · rw [h0] at hs; exact ScanStep.noConfusion hs
        · rw [h0] at hs
          simp only [ScanStep.failed.injEq] at hs
          exact Or.inl ⟨p, hs.1.symm⟩
        · rw [h0] at hs
          rcases pushOrPopSections_cases s.sections
            (pushChild (s.sections - 1) (stepTag input u p e) (stepText input s p))
            (stepTag input u p e) (e + (if u then 3 else 2)) with
            ⟨_, h2⟩ | ⟨_, _, _, h2⟩ | ⟨_, _, _, h2⟩ | ⟨_, _, h2⟩ <;> rw [h2] at hs
          · exact ScanStep.noConfusion hs
          · simp only [ScanStep.failed.injEq] at hs
            exact Or.inr ⟨_, _, hs.1.symm⟩
          · exact ScanStep.noConfusion hs
          · exact ScanStep.noConfusion hs

/-! ## Rendering after a failed parse -/

/-- C15, as amended. Error state: whenever the scan returns with an error (unterminated
tag or unmatched section end), `parse` returns an engine that reports itself invalid, with
that message, which is non-empty and one of the two; but the tree built before the error
stays in the engine and `render` walks it without testing validity: for every brace-free
text `a`, the failed parse of `a ++ "{{"` renders as `a`. -/
theorem error_state :
    (∀ (input msg : StringType) (root : Component),
      scanLoop input (input.length + 1) ⟨Component.new, 1, 0⟩ =
        Except.ok (ScanResult.returned msg root) →
      ∃ m, Mustache.parse input = Except.ok m ∧ m.isValid = false ∧
        m.errorMessage = msg ∧ m.errorMessage ≠ [] ∧ m.rootComponent_ = root ∧
        ((∃ p, m.errorMessage = unterminatedTagMessage p) ∨
         (∃ name p, m.errorMessage = unmatchedSectionEndMessage name p))) ∧
    (∀ (a : StringType) (ctx : Context), NoBrace a →
      ∃ m, Mustache.parse (a ++ braceDelimiterBegin) = Except.ok m ∧ m.isValid = false ∧
        m.render ctx = some a) := by
  constructor
  · intro input msg root hr
    have hform := scanLoop_returned_message input _ _ _ _ hr
    have hne : msg ≠ [] := by
      rcases hform with ⟨p, hp⟩ | ⟨n, p, hp⟩
      · rw [hp]; simp [unterminatedTagMessage]
      · rw [hp]; simp [unmatchedSectionEndMessage]
    refine ⟨⟨msg, root⟩, parse_of_returned input msg root _ (Nat.le_refl _) hr, ?_, rfl, hne,
      rfl, hform⟩
    cases msg with
    | nil => exact absurd rfl hne
    | cons c cs => rfl
  · intro a ctx ha
    have hlen : (a ++ braceDelimiterBegin).length = a.length + 2 := by
      simp [braceDelimiterBegin]
    have hf : find (a ++ braceDelimiterBegin) currentDelimiterBegin 0 = some a.length := by
      have := find_begin [] a [] 0 rfl ha.1
      simpa using this
    have hstep : scanStep (a ++ braceDelimiterBegin) ⟨Component.new, 1, 0⟩ =
        ScanStep.failed (unterminatedTagMessage a.length)
          (if a = [] then Component.new
            else Component.mk [] {} [Component.mk a {} [] 0] npos) := by
      rcases scanStep_cases (a ++ braceDelimiterBegin) ⟨Component.new, 1, 0⟩ with
        ⟨h0, _⟩ | ⟨p, u, hp, hu, hrest⟩
      · rw [hf] at h0; simp at h0
      · rw [hf] at hp
        simp only [Option.some.injEq] at hp
        subst hp
        have hu2 : u = false := by
          cases u with
          | false => rfl
          | true => exact absurd (by rw [hlen]; omega) (hu rfl)
        subst hu2
        rcases hrest with ⟨_, h⟩ | ⟨e, he, _⟩
        · rw [h]
          congr 1
          by_cases hae : a = []
          · subst hae; rfl
          · have hl : a.length ≠ 0 := fun h0 => hae (List.length_eq_zero.mp h0)
            simp [stepText, hae, hl, substr, pushChild, Component.new, Component.setChildren,
              Component.children]
        · simp only [Bool.false_eq_true, if_false] at he
          obtain ⟨h3, h4, _⟩ := find_some _ currentDelimiterEnd (by decide) _ _ he
          have hle : currentDelimiterEnd.length = 2 := rfl
          rw [hle, hlen] at h4
          omega
    have hscan := scanLoop_failed (a ++ braceDelimiterBegin) 0 _ _ _
      (by rw [hlen]; simp) hstep
    refine ⟨_, parse_of_returned _ _ _ 1 (by omega) hscan, ?_, ?_⟩
    · simp [Mustache.isValid, unterminatedTagMessage]
    · by_cases hae : a = []
      · subst hae; rfl
      · simp [hae, Mustache.render, walk, walkTop, walkComponent, walkChildren,
          renderCallback, Component.height, heightList, Component.children, Component.tag,
          Component.isText, Component.isTag, Component.text]

/-- Instance of C15 as amended: the failed parse of `ab{{` renders as `ab`. -/
theorem error_state_witness :
    ∃ m, Mustache.parse ("ab".toList ++ braceDelimiterBegin) = Except.ok m ∧
      m.isValid = false ∧ m.render Context.demo = some "ab".toList :=
  error_state.2 "ab".toList Context.demo (by decide)

/-- The first part of C15 as amended at the input `x{{/s}}y`: the scan returns at the
unmatched end tag, and the engine is invalid with that message. -/
theorem error_state_unmatched_end :
    (match Mustache.parse "x\x7b\x7b/s\x7d\x7dy".toList with
      | Except.ok m =>
        !m.isValid &&
          decide (m.errorMessage =
            "Section end tag \x22s\x22 found without start tag at 1".toList)
      | Except.error _ => false) = true := by
  decide!

/-- C15 as stated fails: the parse of `ab{{` ends with the unterminated-tag message, and
rendering that engine still writes `ab`. -/
theorem render_after_error :
    ∃ m, Mustache.parse "ab\x7b\x7b".toList = Except.ok m ∧ m.isValid = false ∧
      m.errorMessage = "No tag end delimiter found for start delimiter at 2".toList ∧
      m.render Context.demo = some "ab".toList ∧ m.render Context.demo ≠ some [] :=
  ⟨_, rfl, rfl, rfl, rfl, by decide⟩

/-! ## Set-delimiter tags -/

/-- C16 does not hold of the code: `parseTagContents` never assigns `SetDelimiter` (its
`switch` has no case for `=`), and the tag `{{=<% %>=}}` becomes a `Variable` named
`=<% %>=`, so that rendering looks that name up in the context. -/
theorem set_delimiter_unassigned :
    (∀ (isUnescapedVar : Bool) (contents : StringType),
      (parseTagContents isUnescapedVar contents).type ≠ TagType.SetDelimiter) ∧
    ∃ m, Mustache.parse "\x7b\x7b=<% %>=\x7d\x7d".toList = Except.ok m ∧ m.isValid = true ∧
      m.rootComponent_.children =
        [Component.mk [] { name := "=<% %>=".toList, type := TagType.Variable } [] 0] ∧
      m.render (Context.single "=<% %>=".toList "X".toList) = some "X".toList := by
  refine ⟨?_, _, rfl, rfl, rfl, rfl⟩
  intro u contents
  cases u with
  | true => simp [parseTagContents]
  | false =>
    cases contents with
    | nil => simp [parseTagContents]
    | cons c rest =>
      simp only [parseTagContents, Bool.false_eq_true, if_false]
      split_ifs <;> simp

/-! ## Inverted sections -/

theorem parseTagContents_sectionBeginInverted (n : StringType) :
    parseTagContents false (trim ('^' :: n)) =
      { name := trim n, type := TagType.SectionBeginInverted } := by
  rw [trim_cons_of_not_space _ _ (by decide)]
  simp [parseTagContents, trim_rdropWhile]

/-- C19. Inverted sections are not gated: for brace-free `t` and `n`, parsing
`"{{^" ++ n ++ "}}" ++ t ++ "{{/" ++ n ++ "}}"` succeeds and rendering writes `t` in every
context, whether or not the context knows `trim n`. -/
theorem inverted_section_not_gated (t n : StringType) (ctx : Context)
    (ht : NoBrace t) (hn : NoBrace n) :
    ∃ m, Mustache.parse (braceDelimiterBegin ++ ('^' :: n) ++ braceDelimiterEnd ++ t ++
        braceDelimiterBegin ++ ('/' :: n) ++ braceDelimiterEnd) = Except.ok m ∧
      m.isValid = true ∧ m.render ctx = some t := by
  have hlen : (braceDelimiterBegin ++ ('^' :: n) ++ braceDelimiterEnd ++ t ++
        braceDelimiterBegin ++ ('/' :: n) ++ braceDelimiterEnd).length =
      n.length + t.length + n.length + 10 := by
    simp [braceDelimiterBegin, braceDelimiterEnd]; omega
  have hn1 : NoBrace ('^' :: n) := noBrace_cons _ n (by decide) (by decide) hn
  have hn2 : NoBrace ('/' :: n) := noBrace_cons _ n (by decide) (by decide) hn
  have hscan : scanLoop (braceDelimiterBegin ++ ('^' :: n) ++ braceDelimiterEnd ++ t ++
        braceDelimiterBegin ++ ('/' :: n) ++ braceDelimiterEnd) 3
      ⟨Component.new, 1, 0⟩ = Except.ok (ScanResult.completed
      (Component.mk [] {}
        [Component.mk [] { name := trim n, type := TagType.SectionBeginInverted }
          ((if t = [] then [] else [Component.mk t {} [] (n.length + 5)]) ++
            [Component.mk [] { name := trim n, type := TagType.SectionEnd } []
              (n.length + t.length + 5)])
          0] npos)) := by
    rw [scanLoop_tag _ [] [] ('^' :: n)
      (t ++ braceDelimiterBegin ++ ('/' :: n) ++ braceDelimiterEnd) 2 _ (by simp) rfl
      (by simp) hn1, parseTagContents_sectionBeginInverted]
    simp only [pushOrPopSections, Component.tag, Tag.isSectionBegin,
      show (TagType.SectionBeginInverted == TagType.SectionBeginInverted) = true from rfl,
      Bool.or_true, if_true]
    rw [scanLoop_tag _ (braceDelimiterBegin ++ ('^' :: n) ++ braceDelimiterEnd) t
      ('/' :: n) [] 1 _ (by simp)
      (by simp [braceDelimiterBegin, braceDelimiterEnd]; omega) ht.1 hn2,
      parseTagContents_sectionEnd]
    simp only [pushOrPopSections, Component.tag, Tag.isSectionBegin, Tag.isSectionEnd,
      show (TagType.SectionEnd == TagType.SectionBegin) = false from rfl,
      show (TagType.SectionEnd == TagType.SectionBeginInverted) = false from rfl,
      show (TagType.SectionEnd == TagType.SectionEnd) = true from rfl,
      Bool.or_self, Bool.false_eq_true, if_false, if_true,
      show (1 + 1 = 1) = False from by simp]
    rw [scanLoop_done _ 0 _ (by simp [braceDelimiterBegin, braceDelimiterEnd]; omega)]
    by_cases hte : t = []
    · simp [hte, pushChild, updateLast, Component.new, Component.setChildren,
        Component.children, braceDelimiterBegin, braceDelimiterEnd]
    · simp [hte, pushChild, updateLast, Component.new, Component.setChildren,
        Component.children, braceDelimiterBegin, braceDelimiterEnd]
      omega
  have hparse := parse_of_completed _ _ 3 (by rw [hlen]; omega) hscan
  have hvalid : walk
      (Component.mk [] {}
        [Component.mk [] { name := trim n, type := TagType.SectionBeginInverted }
          ((if t = [] then [] else [Component.mk t {} [] (n.length + 5)]) ++
            [Component.mk [] { name := trim n, type := TagType.SectionEnd } []
              (n.length + t.length + 5)])
          0] npos)
      validateCallback ComponentPtr.nullptr = some ComponentPtr.nullptr := by
    by_cases hte : t = [] <;>
      simp [hte, walk, walkTop, walkComponent, walkChildren, validateCallback,
        Component.height, heightList, Component.children, Component.tag, Tag.isSectionBegin,
        Tag.isSectionEnd, Component.setChildren]
  rw [hvalid] at hparse
  refine ⟨_, hparse, rfl, ?_⟩
  by_cases hte : t = [] <;>
    simp [hte, Mustache.render, walk, walkTop, walkComponent, walkChildren,
      renderCallback, Component.height, heightList, Component.children, Component.tag,
      Component.isText, Component.isTag, Component.text]

/-- Instance of C19: `{{^on}}shown{{/on}}` renders as `shown` in a context that knows `on`. -/
theorem inverted_section_not_gated_witness :
    ∃ m, Mustache.parse "\x7b\x7b^on\x7d\x7dshown\x7b\x7b/on\x7d\x7d".toList = Except.ok m ∧
      m.isValid = true ∧
      m.render (Context.single "on".toList "1".toList) = some "shown".toList :=
  inverted_section_not_gated "shown".toList "on".toList
    (Context.single "on".toList "1".toList) (by decide) (by decide)

/-- The other half of the C19 scenario: the same template in a context that does not know
`on` renders as `shown` too. -/
theorem inverted_section_rendered_when_missing :
    (match Mustache.parse "\x7b\x7b^on\x7d\x7dshown\x7b\x7b/on\x7d\x7d".toList with
      | Except.ok m => m.render (Context.single "off".toList "1".toList)
      | Except.error _ => none) = some "shown".toList := by
  decide!

/-! ## The tree under construction -/

theorem shapedList_append (l1 l2 : List Component) :
    shapedList (l1 ++ l2) = (shapedList l1 && shapedList l2) := by
  induction l1 with
  | nil => simp [shapedList]
  | cons x xs ih => simp [shapedList, ih, Bool.and_assoc]

theorem shaped_eq (c : Component) : c.shaped = (c.shapeOK && shapedList c.children) := by
  cases c with
  | mk t g cs p => simp [Component.shaped, Component.children]

theorem countTagsList_append (p : Tag → Bool) (l1 l2 : List Component) :
    countTagsList p (l1 ++ l2) = countTagsList p l1 + countTagsList p l2 := by
  induction l1 with
  | nil => simp [countTagsList]
  | cons x xs ih => simp [countTagsList, ih, Nat.add_assoc]

theorem countTags_eq (p : Tag → Bool) (c : Component) :
    c.countTags p = (if p c.tag then 1 else 0) + countTagsList p c.children := by
  cases c with
  | mk t g cs q => simp [Component.countTags, Component.children, Component.tag]

theorem setChildren_children (c : Component) (l : List Component) :
    (c.setChildren l).children = l := by
  cases c; rfl

theorem setChildren_text (c : Component) (l : List Component) :
    (c.setChildren l).text = c.text := by
  cases c; rfl

theorem setChildren_tag (c : Component) (l : List Component) :
    (c.setChildren l).tag = c.tag := by
  cases c; rfl

theorem pushChild_text (k : Nat) (comp node : Component) :
    (pushChild k comp node).text = node.text := by
  cases k <;> simp [pushChild, setChildren_text]

theorem pushChild_tag (k : Nat) (comp node : Component) :
    (pushChild k comp node).tag = node.tag := by
  cases k <;> simp [pushChild, setChildren_tag]

theorem pushChild_zero_children (comp node : Component) :
    (pushChild 0 comp node).children = node.children ++ [comp] := by
  simp [pushChild, setChildren_children]

theorem pushChild_succ_children (k : Nat) (comp node last : Component)
    (init : List Component) (h : node.children = init ++ [last]) :
    (pushChild (k + 1) comp node).children = init ++ [pushChild k comp last] := by
  simp [pushChild, setChildren_children, h, updateLast_concat]

theorem isSectionEnd_of_begin (g : Tag) (h : g.isSectionBegin = true) :
    g.isSectionEnd = false := by
  unfold Tag.isSectionBegin at h
  unfold Tag.isSectionEnd
  cases ht : g.type <;> simp [ht] at h ⊢

/-- Appending a node that is not a section end keeps the open sections open. -/
theorem openChain_push (comp : Component) (hs : comp.shaped = true)
    (he : comp.tag.isSectionEnd = false) :
    ∀ (k : Nat) (node : Component), OpenChain k node →
      OpenChain k (pushChild k comp node) ∧
      ((∀ x ∈ node.children, x.tag.isSectionEnd = false) →
        ∀ x ∈ (pushChild k comp node).children, x.tag.isSectionEnd = false) := by
  intro k
  induction k with
  | zero =>
    intro node h
    simp only [OpenChain] at h ⊢
    rw [pushChild_zero_children]
    refine ⟨by simp [shapedList_append, h, shapedList, hs], fun hall x hx => ?_⟩
    rcases List.mem_append.mp hx with h1 | h1
    · exact hall x h1
    · simp only [List.mem_singleton] at h1
      subst h1
      exact he
  | succ k ih =>
    intro node h
    obtain ⟨init, last, hch, hinit, hopen, hchain⟩ := h
    obtain ⟨ih1, ih2⟩ := ih last hchain
    have hch2 := pushChild_succ_children k comp node last init hch
    refine ⟨⟨init, pushChild k comp last, hch2, hinit, ?_, ih1⟩, fun hall x hx => ?_⟩
    · exact ⟨by rw [pushChild_text]; exact hopen.1, by rw [pushChild_tag]; exact hopen.2.1,
        ih2 hopen.2.2⟩
    · rw [hch2] at hx
      rcases List.mem_append.mp hx with h1 | h1
      · exact hall x (by rw [hch]; exact List.mem_append_left _ h1)
      · simp only [List.mem_singleton] at h1
        subst h1
        rw [pushChild_tag]
        exact isSectionEnd_of_begin _ hopen.2.1

/-- Appending a section-begin tag node opens one more section. -/
theorem openChain_push_begin (g : Tag) (p : Nat) (hg : g.isSectionBegin = true) :
    ∀ (k : Nat) (node : Component), OpenChain k node →
      OpenChain (k + 1) (pushChild k (Component.mk [] g [] p) node) := by
  have hleaf : IsOpenSection (Component.mk [] g [] p) :=
    ⟨rfl, hg, fun x hx => by simp [Component.children] at hx⟩
  intro k
  induction k with
  | zero =>
    intro node h
    simp only [OpenChain] at h
    exact ⟨node.children, _, pushChild_zero_children _ _, h, hleaf, by
      simp [OpenChain, Component.children, shapedList]⟩
  | succ k ih =>
    intro node h
    obtain ⟨init, last, hch, hinit, hopen, hchain⟩ := h
    have hch2 := pushChild_succ_children k (Component.mk [] g [] p) node last init hch
    refine ⟨init, _, hch2, hinit, ?_, ih last hchain⟩
    have hne : (Component.mk [] g [] p).tag.isSectionEnd = false :=
      isSectionEnd_of_begin _ hg
    have hpres : ∀ (k : Nat) (node : Component),
        (∃ init last, k = 0 ∨ node.children = init ++ [last] ∧
          last.tag.isSectionBegin = true) →
        (∀ x ∈ node.children, x.tag.isSectionEnd = false) →
        ∀ x ∈ (pushChild k (Component.mk [] g [] p) node).children,
          x.tag.isSectionEnd = false := by
      intro k node hk hall x hx
      cases k with
      | zero =>
        rw [pushChild_zero_children] at hx
        rcases List.mem_append.mp hx with h1 | h1
        · exact hall x h1
        · simp only [List.mem_singleton] at h1
          subst h1
          exact hne
      | succ j =>
        obtain ⟨i2, l2, h0 | ⟨hc2, hb2⟩⟩ := hk
        · omega
        · rw [pushChild_succ_children j _ node l2 i2 hc2] at hx
          rcases List.mem_append.mp hx with h1 | h1
          · exact hall x (by rw [hc2]; exact List.mem_append_left _ h1)
          · simp only [List.mem_singleton] at h1
            subst h1
            rw [pushChild_tag]
            exact isSectionEnd_of_begin _ hb2
    refine ⟨by rw [pushChild_text]; exact hopen.1, by rw [pushChild_tag]; exact hopen.2.1,
      hpres k last ?_ hopen.2.2⟩
    cases k with
    | zero => exact ⟨[], last, Or.inl rfl⟩
    | succ j =>
      obtain ⟨i2, l2, hc2, _, ho2, _⟩ := hchain
      exact ⟨i2, l2, Or.inr ⟨hc2, ho2.2.1⟩⟩

theorem shaped_of_closed (last : Component) (htext : last.text = [])
    (hb : last.tag.isSectionBegin = true) (hch : shapedList last.children = true) :
    last.shaped = true := by
  rw [shaped_eq, hch]
  have hty : last.tag.type ≠ TagType.Invalid := by
    intro h
    simp [Tag.isSectionBegin, h] at hb
  simp [Component.shapeOK, htext, hb, hty]

/-- The tree with its open sections is `shaped` throughout. -/
theorem openChain_shaped :
    ∀ (k : Nat) (node : Component), OpenChain k node → shapedList node.children = true := by
  intro k
  induction k with
  | zero => intro node h; exact h
  | succ k ih =>
    intro node h
    obtain ⟨init, last, hch, hinit, hopen, hchain⟩ := h
    rw [hch, shapedList_append, hinit]
    simp [shapedList, shaped_of_closed last hopen.1 hopen.2.1 (ih last hchain)]

/-- Appending a section-end tag node to the innermost open section and popping it leaves
one open section fewer. -/
theorem openChain_push_end (comp : Component) (hs : comp.shaped = true) :
    ∀ (k : Nat) (node : Component), OpenChain (k + 1) node →
      OpenChain k (pushChild (k + 1) comp node) ∧
      ((∀ x ∈ node.children, x.tag.isSectionEnd = false) →
        ∀ x ∈ (pushChild (k + 1) comp node).children, x.tag.isSectionEnd = false) := by
  intro k
  induction k with
  | zero =>
    intro node h
    obtain ⟨init, last, hch, hinit, hopen, hchain⟩ := h
    simp only [OpenChain] at hchain ⊢
    have hch2 := pushChild_succ_children 0 comp node last init hch
    have hlast : (pushChild 0 comp last).shaped = true := by
      refine shaped_of_closed _ (by rw [pushChild_text]; exact hopen.1)
        (by rw [pushChild_tag]; exact hopen.2.1) ?_
      rw [pushChild_zero_children, shapedList_append, hchain]
      simp [shapedList, hs]
    refine ⟨by rw [hch2, shapedList_append, hinit]; simp [shapedList, hlast],
      fun hall x hx => ?_⟩
    rw [hch2] at hx
    rcases List.mem_append.mp hx with h1 | h1
    · exact hall x (by rw [hch]; exact List.mem_append_left _ h1)
    · simp only [List.mem_singleton] at h1
      subst h1
      rw [pushChild_tag]
      exact isSectionEnd_of_begin _ hopen.2.1
  | succ k ih =>
    intro node h
    obtain ⟨init, last, hch, hinit, hopen, hchain⟩ := h
    obtain ⟨ih1, ih2⟩ := ih last hchain
    have hch2 := pushChild_succ_children (k + 1) comp node last init hch
    refine ⟨⟨init, _, hch2, hinit, ⟨by rw [pushChild_text]; exact hopen.1,
      by rw [pushChild_tag]; exact hopen.2.1, ih2 hopen.2.2⟩, ih1⟩, fun hall x hx => ?_⟩
    rw [hch2] at hx
    rcases List.mem_append.mp hx with h1 | h1
    · exact hall x (by rw [hch]; exact List.mem_append_left _ h1)
    · simp only [List.mem_singleton] at h1
      subst h1
      rw [pushChild_tag]
      exact isSectionEnd_of_begin _ hopen.2.1

/-- Appending a leaf to the innermost open section adds exactly that leaf to the count. -/
theorem countTags_pushChild (q : Tag → Bool) (comp : Component) :
    ∀ (k : Nat) (node : Component), OpenChain k node →
      countTagsList q (pushChild k comp node).children =
        countTagsList q node.children + comp.countTags q := by
  intro k
  induction k with
  | zero =>
    intro node _
    rw [pushChild_zero_children, countTagsList_append]
    simp [countTagsList]
  | succ k ih =>
    intro node h
    obtain ⟨init, last, hch, _, _, hchain⟩ := h
    rw [pushChild_succ_children k comp node last init hch, hch, countTagsList_append,
      countTagsList_append]
    simp only [countTagsList, Nat.add_zero]
    rw [countTags_eq q (pushChild k comp last), countTags_eq q last, pushChild_tag,
      ih last hchain]
    omega

theorem parseTagContents_ne_invalid (u : Bool) (contents : StringType) :
    (parseTagContents u contents).type ≠ TagType.Invalid := by
  cases u with
  | true => simp [parseTagContents]
  | false =>
    cases contents with
    | nil => simp [parseTagContents]
    | cons c rest =>
      simp only [parseTagContents, Bool.false_eq_true, if_false]
      split_ifs <;> simp

theorem stepTag_shaped (input : StringType) (u : Bool) (p e : Nat) :
    (stepTag input u p e).shaped = true := by
  have h := parseTagContents_ne_invalid u (trim (substr input (if u then p + 2 + 1 else p + 2)
      (e - (if u then p + 2 + 1 else p + 2))))
  simp [stepTag, Component.shaped, Component.shapeOK, Component.text, Component.tag,
    Component.children, shapedList, h]

theorem text_shaped (t : StringType) (p : Nat) (ht : t ≠ []) :
    (Component.mk t {} [] p).shaped = true := by
  simp [Component.shaped, Component.shapeOK, Component.text, Component.tag,
    Component.children, shapedList, ht]

theorem substr_ne_nil (input : StringType) (pos n : Nat) (hpos : pos < input.length)
    (hn : 0 < n) : substr input pos n ≠ [] := by
  intro h
  have hl := congrArg List.length h
  simp only [substr, List.length_take, List.length_drop, List.length_nil] at hl
  omega

/-! ## The invariant of the scan -/

theorem stepText_inv (input : StringType) (s : ScanState) (p : Nat)
    (hinv : ScanInv input s)
    (hf : find input currentDelimiterBegin s.inputPosition = some p) :
    OpenChain (s.sections - 1) (stepText input s p) ∧
    countTagsList Tag.isSectionBegin (stepText input s p).children =
      countTagsList Tag.isSectionEnd (stepText input s p).children + (s.sections - 1) := by
  obtain ⟨_, hchain, hcount, _⟩ := hinv
  obtain ⟨h1, h2, _⟩ := find_some input currentDelimiterBegin (by decide) _ p hf
  have hlb : currentDelimiterBegin.length = 2 := rfl
  rw [hlb] at h2
  unfold stepText
  by_cases hp : p = s.inputPosition
  · simp only [hp, ne_eq, not_true_eq_false, if_false]
    exact ⟨hchain, hcount⟩
  · simp only [ne_eq, hp, not_false_eq_true, if_true]
    have hne : substr input s.inputPosition (p - s.inputPosition) ≠ [] :=
      substr_ne_nil _ _ _ (by omega) (by omega)
    refine ⟨(openChain_push _ (text_shaped _ _ hne) rfl _ _ hchain).1, ?_⟩
    rw [countTags_pushChild _ _ _ _ hchain, countTags_pushChild _ _ _ _ hchain, hcount]
    simp [Component.countTags, countTagsList, Tag.isSectionBegin, Tag.isSectionEnd]

theorem stepTag_count (q : Tag → Bool) (input : StringType) (u : Bool) (p e : Nat) :
    (stepTag input u p e).countTags q = if q (stepTag input u p e).tag then 1 else 0 := by
  simp [stepTag, Component.countTags, countTagsList, Component.tag]

/-- One pass of the loop body keeps the invariant; when it ends the scan, the tree it leaves
still has the chain of open sections, and when it returns with an error the tree is
`shaped`. -/
theorem scanStep_inv (input : StringType) (s : ScanState) (hinv : ScanInv input s)
    (hne : s.inputPosition ≠ input.length) :
    (∀ s1, scanStep input s = ScanStep.next s1 → ScanInv input s1) ∧
    (∀ root, scanStep input s = ScanStep.finished root →
      OpenChain (s.sections - 1) root ∧
      countTagsList Tag.isSectionBegin root.children =
        countTagsList Tag.isSectionEnd root.children + (s.sections - 1)) ∧
    (∀ msg root, scanStep input s = ScanStep.failed msg root →
      shapedList root.children = true) := by
  have hinv0 := hinv
  obtain ⟨hsec, hchain, hcount, hle⟩ := hinv
  rcases scanStep_cases input s with ⟨_, h0⟩ | ⟨p, u, hf, _, ⟨_, h0⟩ | ⟨e, he, h0⟩⟩
  · rw [h0]
    refine ⟨fun s1 h => ScanStep.noConfusion h, fun root h => ?_,
      fun msg root h => ScanStep.noConfusion h⟩
    simp only [ScanStep.finished.injEq] at h
    subst h
    have hnil : substr input s.inputPosition (input.length - s.inputPosition) ≠ [] :=
      substr_ne_nil _ _ _ (by omega) (by omega)
    refine ⟨(openChain_push _ (text_shaped _ _ hnil) rfl _ _ hchain).1, ?_⟩
    rw [countTags_pushChild _ _ _ _ hchain, countTags_pushChild _ _ _ _ hchain, hcount]
    simp [Component.countTags, countTagsList, Tag.isSectionBegin, Tag.isSectionEnd]
  · rw [h0]
    refine ⟨fun s1 h => ScanStep.noConfusion h, fun root h => ScanStep.noConfusion h,
      fun msg root h => ?_⟩
    simp only [ScanStep.failed.injEq] at h
    rw [← h.2]
    exact openChain_shaped _ _ (stepText_inv input s p hinv0 hf).1
  · obtain ⟨hc1, hn1⟩ := stepText_inv input s p hinv0 hf
    have hshape := stepTag_shaped input u p e
    have hcb := stepTag_count Tag.isSectionBegin input u p e
    have hce := stepTag_count Tag.isSectionEnd input u p e
    have hprog : ∀ s1, scanStep input s = ScanStep.next s1 →
        s1.inputPosition ≤ input.length :=
      fun s1 h => (scanStep_next_progress input s s1 h).2
    have htagform : stepTag input u p e =
        Component.mk [] (stepTag input u p e).tag [] p := rfl
    rcases pushOrPopSections_cases s.sections
      (pushChild (s.sections - 1) (stepTag input u p e) (stepText input s p))
      (stepTag input u p e) (e + (if u then 3 else 2)) with
      ⟨hb, h2⟩ | ⟨hb, hend, hk, h2⟩ | ⟨hb, hend, hk, h2⟩ | ⟨hb, hend, h2⟩
    · -- a section begins
      have hprog2 := hprog
      rw [h0, h2] at hprog2
      rw [h0, h2]
      refine ⟨fun s1 h => ?_, fun root h => ScanStep.noConfusion h,
        fun msg root h => ScanStep.noConfusion h⟩
      have hp := hprog2 s1 h
      simp only [ScanStep.next.injEq] at h
      subst h
      refine ⟨by simp, ?_, ?_, hp⟩
      · simp only [Nat.add_sub_cancel]
        have := openChain_push_begin (stepTag input u p e).tag p hb _ _ hc1
        rw [← htagform] at this
        have e1 : s.sections - 1 + 1 = s.sections := by omega
        rw [e1] at this
        exact this
      · simp only [Nat.add_sub_cancel]
        rw [countTags_pushChild _ _ _ _ hc1, countTags_pushChild _ _ _ _ hc1, hn1, hcb, hce,
          hb, isSectionEnd_of_begin _ hb]
        simp
        omega
    · -- a section end with no open section: the error return
      rw [h0, h2]
      refine ⟨fun s1 h => ScanStep.noConfusion h, fun root h => ScanStep.noConfusion h,
        fun msg root h => ?_⟩
      simp only [ScanStep.failed.injEq] at h
      rw [← h.2]
      have hc0 : OpenChain 0 (stepText input s p) := by
        have := hc1
        rw [hk] at this
        exact this
      simp only [hk, Nat.sub_self]
      rw [pushChild_zero_children, shapedList_append]
      simp only [OpenChain] at hc0
      simp [hc0, shapedList, hshape]
    · -- a section end that pops
      have hprog2 := hprog
      rw [h0, h2] at hprog2
      rw [h0, h2]
      refine ⟨fun s1 h => ?_, fun root h => ScanStep.noConfusion h,
        fun msg root h => ScanStep.noConfusion h⟩
      have hp := hprog2 s1 h
      simp only [ScanStep.next.injEq] at h
      subst h
      obtain ⟨j, hj⟩ : ∃ j, s.sections - 1 = j + 1 := ⟨s.sections - 2, by omega⟩
      refine ⟨by simp only; omega, ?_, ?_, hp⟩
      · simp only
        rw [hj] at hc1 ⊢
        have := (openChain_push_end _ hshape j _ hc1).1
        simpa using this
      · simp only
        rw [countTags_pushChild _ _ _ _ hc1, countTags_pushChild _ _ _ _ hc1, hn1, hcb, hce,
          hb, hend]
        simp
        omega
    · -- any other tag
      have hprog2 := hprog
      rw [h0, h2] at hprog2
      rw [h0, h2]
      refine ⟨fun s1 h => ?_, fun root h => ScanStep.noConfusion h,
        fun msg root h => ScanStep.noConfusion h⟩
      have hp := hprog2 s1 h
      simp only [ScanStep.next.injEq] at h
      subst h
      refine ⟨hsec, (openChain_push _ hshape hend _ _ hc1).1, ?_, hp⟩
      simp only
      rw [countTags_pushChild _ _ _ _ hc1, countTags_pushChild _ _ _ _ hc1, hn1, hcb, hce,
        hb, hend]
      simp

theorem scanInv_init (input : StringType) : ScanInv input ⟨Component.new, 1, 0⟩ := by
  refine ⟨Nat.le_refl _, ?_, ?_, Nat.zero_le _⟩
  · simp [OpenChain, Component.new, Component.children, shapedList]
  · simp [Component.new, Component.children, countTagsList]

/-- The invariant carried through the whole scan. -/
theorem scanLoop_inv (input : StringType) :
    ∀ (fuel : Nat) (s : ScanState), ScanInv input s →
      (∀ root, scanLoop input fuel s = Except.ok (ScanResult.completed root) →
        ∃ k, scanLoopSections input fuel s = some (k + 1) ∧ OpenChain k root ∧
          countTagsList Tag.isSectionBegin root.children =
            countTagsList Tag.isSectionEnd root.children + k) ∧
      (∀ msg root, scanLoop input fuel s = Except.ok (ScanResult.returned msg root) →
        shapedList root.children = true) ∧
      (∀ n, scanLoopSections input fuel s = some n →
        ∃ root, scanLoop input fuel s = Except.ok (ScanResult.completed root)) := by
  intro fuel
  induction fuel with
  | zero =>
    intro s _
    refine ⟨fun root h => ?_, fun msg root h => ?_, fun n h => ?_⟩
    · simp [scanLoop] at h
    · simp [scanLoop] at h
    · simp [scanLoopSections] at h
  | succ f ih =>
    intro s hinv
    by_cases hp : s.inputPosition = input.length
    · refine ⟨fun root h => ?_, fun msg root h => ?_, fun n _ => ?_⟩
      · simp only [scanLoop, hp, if_true, Except.ok.injEq, ScanResult.completed.injEq] at h
        subst h
        obtain ⟨hsec, hchain, hcount, _⟩ := hinv
        refine ⟨s.sections - 1, ?_, hchain, hcount⟩
        simp only [scanLoopSections, hp, if_true, Option.some.injEq]
        omega
      · simp [scanLoop, hp] at h
      · exact ⟨s.rootComponent_, by simp [scanLoop, hp]⟩
    · obtain ⟨hnext, hfin, hfail⟩ := scanStep_inv input s hinv hp
      cases hs : scanStep input s with
      | next s1 =>
        have e1 : scanLoop input (f + 1) s = scanLoop input f s1 := by
          simp [scanLoop, hp, hs]
        have e2 : scanLoopSections input (f + 1) s = scanLoopSections input f s1 := by
          simp [scanLoopSections, hp, hs]
        rw [e1, e2]
        exact ih s1 (hnext s1 hs)
      | finished r =>
        have e1 : scanLoop input (f + 1) s = Except.ok (ScanResult.completed r) := by
          simp [scanLoop, hp, hs]
        have e2 : scanLoopSections input (f + 1) s = some s.sections := by
          simp [scanLoopSections, hp, hs]
        rw [e1, e2]
        refine ⟨fun root h => ?_, fun msg root h => ?_, fun n _ => ⟨r, rfl⟩⟩
        · simp only [Except.ok.injEq, ScanResult.completed.injEq] at h
          subst h
          obtain ⟨hc, hn⟩ := hfin _ hs
          refine ⟨s.sections - 1, ?_, hc, hn⟩
          have := hinv.1
          simp only [Option.some.injEq]
          omega
        · simp at h
      | failed msg1 r =>
        have e1 : scanLoop input (f + 1) s = Except.ok (ScanResult.returned msg1 r) := by
          simp [scanLoop, hp, hs]
        have e2 : scanLoopSections input (f + 1) s = none := by
          simp [scanLoopSections, hp, hs]
        rw [e1, e2]
        refine ⟨fun root h => ?_, fun msg root h => ?_, fun n h => ?_⟩
        · simp at h
        · simp only [Except.ok.injEq, ScanResult.returned.injEq] at h
          rw [← h.2]
          exact hfail _ _ hs
        · simp at h
      | outOfRange => exact absurd hs (scanStep_ne_outOfRange input s)

/-- The second part of C17 at the input `{{#x}}no end`: the loop is left with two pointers on
the stack, and the validation walk over the tree ends with `invalidStartPosition` set. -/
theorem open_section_detected :
    scanLoopSections "\x7b\x7b#x\x7d\x7dno end".toList 13 ⟨Component.new, 1, 0⟩ = some 2 ∧
    (match scanLoop "\x7b\x7b#x\x7d\x7dno end".toList 13 ⟨Component.new, 1, 0⟩ with
      | Except.ok (ScanResult.completed root) => walk root validateCallback ComponentPtr.nullptr
      | _ => none) = some ComponentPtr.loopCopy := by
  decide!

/-! ## The shape of the tree -/

theorem shapeOK_of_shapedList :
    ∀ (n : Nat) (l : List Component) (d0 : Nat), heightList l ≤ n → shapedList l = true →
      ∀ c d, (c, d) ∈ preorderList l d0 → c.shapeOK = true := by
  intro n
  induction n with
  | zero =>
    intro l d0 hl _ c d hmem
    cases l with
    | nil => simp [preorderList] at hmem
    | cons x xs =>
      simp only [heightList] at hl
      have := height_eq x
      have := Nat.le_max_left x.height (heightList xs)
      omega
  | succ n ih =>
    intro l
    induction l with
    | nil => intro d0 _ _ c d hmem; simp [preorderList] at hmem
    | cons x xs ihl =>
      intro d0 hl hs c d hmem
      simp only [heightList] at hl
      have hx : x.height ≤ n + 1 := Nat.le_trans (Nat.le_max_left _ _) hl
      have hxs : heightList xs ≤ n + 1 := Nat.le_trans (Nat.le_max_right _ _) hl
      simp only [shapedList, Bool.and_eq_true] at hs
      obtain ⟨hsx, hsxs⟩ := hs
      simp only [preorderList, List.mem_append] at hmem
      rcases hmem with h1 | h1
      · cases x with
        | mk t g cs p =>
          simp only [Component.shaped, Bool.and_eq_true] at hsx
          simp only [Component.preorder, List.mem_cons, Prod.mk.injEq] at h1
          rcases h1 with ⟨h2, _⟩ | h2
          · rw [h2]; exact hsx.1
          · simp only [Component.height] at hx
            exact ih cs (d0 + 1) (by omega) hsx.2 c d h2
      · exact ihl d0 hxs hsxs c d h1

/-- C18. Tree shape invariant: for every input the scan ends, completed or with an error
return, and in the tree it has built every node below the root is either a text node
(non-empty text, tag type `Invalid`, no children) or a tag node (empty text, a type other
than `Invalid`), with children only under section-begin tags; hence `isText()` holds exactly
of the nodes with tag type `Invalid` and `isTag()` exactly of the others. The same holds of
the tree of every engine that `parse` returns, which is that tree. -/
theorem tree_shape (input : StringType) :
    (∃ r, scanLoop input (input.length + 1) ⟨Component.new, 1, 0⟩ = Except.ok r ∧
      ∀ c d, (c, d) ∈ preorderList r.rootComponent_.children 0 →
        c.shapeOK = true ∧
        (c.isText = true ↔ c.tag.type = TagType.Invalid) ∧
        (c.isTag = true ↔ c.tag.type ≠ TagType.Invalid)) ∧
    (∀ m, Mustache.parse input = Except.ok m →
      ∀ c d, (c, d) ∈ preorderList m.rootComponent_.children 0 →
        c.shapeOK = true ∧
        (c.isText = true ↔ c.tag.type = TagType.Invalid) ∧
        (c.isTag = true ↔ c.tag.type ≠ TagType.Invalid)) := by
  obtain ⟨hcomp, hret, _⟩ := scanLoop_inv input (input.length + 1) _ (scanInv_init input)
  have hnode : ∀ (root : Component), shapedList root.children = true →
      ∀ c d, (c, d) ∈ preorderList root.children 0 →
        c.shapeOK = true ∧
        (c.isText = true ↔ c.tag.type = TagType.Invalid) ∧
        (c.isTag = true ↔ c.tag.type ≠ TagType.Invalid) := by
    intro root hshaped c d hmem
    have hok := shapeOK_of_shapedList _ _ 0 (Nat.le_refl _) hshaped c d hmem
    refine ⟨hok, ?_, ?_⟩
    · unfold Component.shapeOK at hok
      unfold Component.isText
      cases ht : c.text.isEmpty <;> cases hty : c.tag.type <;> simp [ht, hty] at hok ⊢
    · unfold Component.shapeOK at hok
      unfold Component.isTag
      cases ht : c.text.isEmpty <;> cases hty : c.tag.type <;> simp [ht, hty] at hok ⊢
  have hscan : ∀ r, scanLoop input (input.length + 1) ⟨Component.new, 1, 0⟩ = Except.ok r →
      shapedList r.rootComponent_.children = true := by
    intro r hr
    cases r with
    | returned msg root => exact hret _ _ hr
    | completed root =>
      obtain ⟨k, _, hchain, _⟩ := hcomp _ hr
      exact openChain_shaped k _ hchain
  constructor
  · obtain ⟨r, hr⟩ := scanLoop_total input (input.length + 1) ⟨Component.new, 1, 0⟩
      (Nat.zero_le _) (by
        have := Nat.div_le_self (input.length - 0) 4
        simp only [Nat.sub_zero] at this ⊢
        omega)
    exact ⟨r, hr, hnode _ (hscan r hr)⟩
  · intro m hm
    rcases parse_cases input m hm with hr | ⟨hc, _⟩
    · exact hnode _ (hscan _ hr)
    · exact hnode _ (hscan _ hc)

/-- The shape invariant evaluated on the template of `main`: the tree has 17 nodes below the
root and each of them passes the node check. -/
theorem tree_shape_demo :
    (match Mustache.parse demoInput with
      | Except.ok m =>
        (preorderList m.rootComponent_.children 0).length == 17 &&
          (preorderList m.rootComponent_.children 0).all (fun cd => cd.1.shapeOK)
      | Except.error _ => false) = true := by
  decide!

/-- The shape invariant evaluated on a failed parse: `a{{#s}}b{{/x` ends with the
unterminated-tag message and its 3 nodes pass the node check. -/
theorem tree_shape_failed_parse :
    (match Mustache.parse "a\x7b\x7b#s\x7d\x7db\x7b\x7b/x".toList with
      | Except.ok m =>
        !m.isValid && (preorderList m.rootComponent_.children 0).length == 3 &&
          (preorderList m.rootComponent_.children 0).all (fun cd => cd.1.shapeOK)
      | Except.error _ => false) = true := by
  decide!


end Mustache
